import Mathlib

/-!
Associative cache simulator (`main.cpp`).

A shallow embedding of the cache core of `main.cpp`: the global state
(`RAM`, `cache`, `globalTime`, `hitCount`, `missCount`), the initialisers
`initRAM` / `initCache`, and the two entry points `readFromAddress` and
`writeToAddress`.

Modelling conventions.
* The global variables become the fields of one `State` record which every
  operation takes and returns.
* `vector<int> RAM`, the two-level `cache` vector and each line's `data`
  vector are total maps from indices; the cache core only touches indices
  below `RAM_SIZE`, `CACHE_NUM_SETS`, `CACHE_WAYS` and `BLOCK_SIZE`. The load
  loop of `main` is modelled with a record of the indices it stores at.
* `int` words, tags and caller-supplied addresses are `Int`; once the range
  guard has passed the address is non-negative and the index arithmetic is
  carried out on `Nat` (C++ `/` and `%` agree with `Nat` division there).
* The `unsigned long` counters and stamps are natural numbers below
  `ULONG_MAX + 1`; `x++` is `(x + 1) % (ULONG_MAX + 1)`, with `unsigned long`
  taken to be 64 bits wide.
* The `debug` flag and the `cout` output do not influence the state or the
  returned word and are left out.
-/

namespace AssocCache

/-! ## Configuration constants (lines 11-16) -/

def RAM_SIZE : Nat := 512

def BLOCK_SIZE : Nat := 8

def NUM_BLOCKS_RAM : Nat := RAM_SIZE / BLOCK_SIZE

def CACHE_WAYS : Nat := 4

def CACHE_NUM_SETS : Nat := NUM_BLOCKS_RAM / (CACHE_WAYS * CACHE_WAYS)

/-- The largest value of `unsigned long`, the type of `globalTime`, `hitCount`,
`missCount` and `fifo_time` (lines 22, 28-30), for a 64-bit `unsigned long`. -/
def ULONG_MAX : Nat := 18446744073709551615

/-! ## Data model (lines 18-30) -/

/-- One slot of a set: `struct CacheLine`. -/
structure CacheLine where
  valid : Bool
  tag : Int
  data : Nat → Int
  fifo_time : Nat

/-- The global variables of the program. -/
structure State where
  RAM : Nat → Int
  cache : Nat → Nat → CacheLine
  globalTime : Nat
  hitCount : Nat
  missCount : Nat

/-- The globals as their definitions construct them (lines 25-30): a zeroed RAM,
value-initialised cache lines and zero counters. -/
def startState : State where
  RAM := fun _ => 0
  cache := fun _ _ => { valid := false, tag := 0, data := fun _ => 0, fifo_time := 0 }
  globalTime := 0
  hitCount := 0
  missCount := 0

/-- The function `initCache` (lines 32-41): every line of every set is made invalid with
tag `-1`, a zero block and stamp `0`. -/
def initCache (s : State) : State :=
  { s with
    cache := fun set way =>
      if set < CACHE_NUM_SETS ∧ way < CACHE_WAYS then
        { valid := false, tag := -1, data := fun _ => 0, fifo_time := 0 }
      else s.cache set way }

/-- The function `initRAM` (lines 43-47): `RAM[i] = i`. -/
def initRAM (s : State) : State :=
  { s with RAM := fun i => if i < RAM_SIZE then (i : Int) else s.RAM i }

/-- The state in which `main` enters its menu loop: `initRAM(); initCache();`. -/
def initState : State := initCache (initRAM startState)

/-! ## Address decomposition -/

/-- The read path, line 55: `blockNumber = address / 128`. -/
def readBlockNumber (a : Nat) : Nat := a / 128

/-- The read path, line 56: `offset = address % BLOCK_SIZE`. -/
def readOffset (a : Nat) : Nat := a % BLOCK_SIZE

/-- The read path, line 57: `lineIndex = (address % 128) / BLOCK_SIZE`. -/
def readLineIndex (a : Nat) : Nat := (a % 128) / BLOCK_SIZE

/-- The read path, line 58: `tag = blockNumber * 4 + (address / 32) % 4`. -/
def readTag (a : Nat) : Nat := readBlockNumber a * 4 + (a / 32) % 4

/-- The read path, line 59: `setIndex = blockNumber % CACHE_NUM_SETS`. -/
def readSetIndex (a : Nat) : Nat := readBlockNumber a % CACHE_NUM_SETS

/-- The `(set index, tag, offset)` triple of `readFromAddress`. -/
def readDecompose (a : Nat) : Nat × Nat × Nat := (readSetIndex a, readTag a, readOffset a)

/-- The write path, line 126: `blockNumber = address / BLOCK_SIZE`. -/
def writeBlockNumber (a : Nat) : Nat := a / BLOCK_SIZE

/-- The write path, line 127: `offset = address % BLOCK_SIZE`. -/
def writeOffset (a : Nat) : Nat := a % BLOCK_SIZE

/-- The write path, line 128: `setIndex = blockNumber % CACHE_NUM_SETS`. -/
def writeSetIndex (a : Nat) : Nat := writeBlockNumber a % CACHE_NUM_SETS

/-- The write path, line 129: `tag = blockNumber / CACHE_NUM_SETS`. -/
def writeTag (a : Nat) : Nat := writeBlockNumber a / CACHE_NUM_SETS

/-- The `(set index, tag, offset)` triple of `writeToAddress`. -/
def writeDecompose (a : Nat) : Nat × Nat × Nat := (writeSetIndex a, writeTag a, writeOffset a)

/-! ## Loops over the ways of a set -/

/-- The probe loop (lines 68-75, 132-141, 146-151): the first way, in index order, that is
valid and carries `tag`. -/
def findWay (c : Nat → Nat → CacheLine) (setIndex : Nat) (tag : Int) : Option Nat :=
  (List.range CACHE_WAYS).find?
    (fun way => (c setIndex way).valid && decide ((c setIndex way).tag = tag))

/-- The empty-slot loop (lines 83-89): the first way that is not valid. -/
def findEmpty (c : Nat → Nat → CacheLine) (setIndex : Nat) : Option Nat :=
  (List.range CACHE_WAYS).find? (fun way => !(c setIndex way).valid)

/-- The minimum loop (lines 92-99): starting from way `0`, ways `1 .. CACHE_WAYS - 1` are
scanned and a way replaces the candidate when its stamp is strictly smaller. The
accumulator is `(minTime, replaceIndex)`. -/
def oldestWay (c : Nat → Nat → CacheLine) (setIndex : Nat) : Nat :=
  ((List.range' 1 (CACHE_WAYS - 1)).foldl
    (fun (acc : Nat × Nat) way =>
      if (c setIndex way).fifo_time < acc.1 then ((c setIndex way).fifo_time, way) else acc)
    ((c setIndex 0).fifo_time, 0)).2

/-- Victim selection (lines 81-100): an empty way if there is one, else the oldest. -/
def selectReplaceIndex (c : Nat → Nat → CacheLine) (setIndex : Nat) : Nat :=
  match findEmpty c setIndex with
  | some way => way
  | none => oldestWay c setIndex

/-- The block load loop (lines 106-109): word `i` of the line is read from
`blockNumber * 128 + lineIndex * BLOCK_SIZE + i`, or is `0` beyond `RAM_SIZE`. -/
def loadData (RAM : Nat → Int) (blockNumber lineIndex : Nat) (old : Nat → Int) : Nat → Int :=
  (List.range BLOCK_SIZE).foldl
    (fun d i =>
      let ramAddress := blockNumber * 128 + lineIndex * BLOCK_SIZE + i
      fun j => if j = i then (if ramAddress < RAM_SIZE then RAM ramAddress else 0) else d j)
    old

/-- Replace line `way` of set `setIndex`. -/
def setLine (c : Nat → Nat → CacheLine) (setIndex way : Nat) (l : CacheLine) :
    Nat → Nat → CacheLine :=
  fun s w => if s = setIndex ∧ w = way then l else c s w

/-- The assignment `cache[setIndex][way].data[offset] = value`. -/
def setWord (c : Nat → Nat → CacheLine) (setIndex way offset : Nat) (value : Int) :
    Nat → Nat → CacheLine :=
  setLine c setIndex way
    { c setIndex way with
      data := fun j => if j = offset then value else (c setIndex way).data j }

/-! ## The two entry points -/

/-- The function `readFromAddress` (lines 49-117): the returned word and the new state.
The increments `hitCount++`, `missCount++` and `globalTime++` wrap at `ULONG_MAX`. -/
def readFromAddress (s : State) (address : Int) : Int × State :=
  if address < 0 ∨ address ≥ (RAM_SIZE : Int) then (-1, s)
  else
    let a := address.toNat
    let blockNumber := readBlockNumber a
    let offset := readOffset a
    let lineIndex := readLineIndex a
    let tag : Int := (readTag a : Int)
    let setIndex := readSetIndex a
    match findWay s.cache setIndex tag with
    | some way =>
      ((s.cache setIndex way).data offset,
        { s with hitCount := (s.hitCount + 1) % (ULONG_MAX + 1) })
    | none =>
      let replaceIndex := selectReplaceIndex s.cache setIndex
      let line : CacheLine :=
        { valid := true
          tag := tag
          fifo_time := s.globalTime
          data := loadData s.RAM blockNumber lineIndex (s.cache setIndex replaceIndex).data }
      (line.data offset,
        { s with
          missCount := (s.missCount + 1) % (ULONG_MAX + 1)
          globalTime := (s.globalTime + 1) % (ULONG_MAX + 1)
          cache := setLine s.cache setIndex replaceIndex line })

/-- The function `writeToAddress` (lines 121-153). -/
def writeToAddress (s : State) (address : Int) (value : Int) : State :=
  if address < 0 ∨ address ≥ (RAM_SIZE : Int) then s
  else
    let a := address.toNat
    let offset := writeOffset a
    let setIndex := writeSetIndex a
    let tag : Int := (writeTag a : Int)
    let s1 : State := { s with RAM := fun i => if i = a then value else s.RAM i }
    match findWay s1.cache setIndex tag with
    | some way => { s1 with cache := setWord s1.cache setIndex way offset value }
    | none =>
      let s2 := (readFromAddress s1 address).2
      match findWay s2.cache setIndex tag with
      | some way => { s2 with cache := setWord s2.cache setIndex way offset value }
      | none => s2

/-! ## Call sequences -/

/-- One call made by a client of the core. -/
inductive Op where
  | read (address : Int)
  | write (address : Int) (value : Int)

/-- The state after one call. -/
def step (s : State) : Op → State
  | .read a => (readFromAddress s a).2
  | .write a v => writeToAddress s a v

/-- The state after a sequence of calls, first call first. -/
def run (s : State) (ops : List Op) : State := ops.foldl step s

/-- The states reachable from `initState` by `readFromAddress` / `writeToAddress` calls. -/
def Reachable (s : State) : Prop := ∃ ops : List Op, s = run initState ops

/-- The state after `n` consecutive calls `readFromAddress(address)` and the words they
returned, first call first. -/
def readRepeat : Nat → State → Int → List Int × State
  | 0, s, _ => ([], s)
  | n + 1, s, address =>
    let r := readFromAddress s address
    let rest := readRepeat n r.2 address
    (r.1 :: rest.1, rest.2)

/-- What one call adds to `hitCount + missCount` according to the accounting rule: `1` for
a read with an in-range address, `1` for an in-range write whose own probe (lines 131-141)
finds no line, `0` for a write hit and for any out-of-range call. -/
def counted (s : State) : Op → Nat
  | .read a => if 0 ≤ a ∧ a < (RAM_SIZE : Int) then 1 else 0
  | .write a _ =>
    if 0 ≤ a ∧ a < (RAM_SIZE : Int) ∧
        findWay s.cache (writeSetIndex a.toNat) (writeTag a.toNat : Int) = none then 1
    else 0

/-- The accounting rule summed along a sequence of calls, each call judged in the state
in which it is made. -/
def countedCalls : State → List Op → Nat
  | _, [] => 0
  | s, op :: ops => counted s op + countedCalls (step s op) ops

/-- The state after reading addresses `0`, `32`, `64`, `96` from the initial state: four
distinct blocks (numbers `0`, `4`, `8`, `12`) that both paths map to set `0`. -/
def fourReads : State := run initState [.read 0, .read 32, .read 64, .read 96]

/-- The number of valid lines among the `CACHE_NUM_SETS × CACHE_WAYS` lines of the cache
(the quantity `usedLines` of `showStatistics`, lines 191-204). -/
def validCount (c : Nat → Nat → CacheLine) : Nat :=
  ((List.range CACHE_NUM_SETS).map
    (fun set => (List.range CACHE_WAYS).countP (fun way => (c set way).valid))).sum

/-- The outcome of the load loop of `main`, case 1 (lines 289-293): the final `index`
(the count that is printed), the memory, and the indices at which
`fin >> RAM[index]` stored a word, in the order of the stores. -/
structure LoadResult where
  index : Nat
  RAM : Nat → Int
  stores : List Nat

/-- The loop `while (fin >> RAM[index] && index < RAM_SIZE) index++` (lines 289-292) run
on the integers that remain in the file, each of them a token that fits `int`. The left
operand of `&&` is evaluated first:
when an integer remains it is stored at `RAM[index]`, and only then is `index` compared
with `RAM_SIZE`; when none remains the extraction fails, nothing is stored and the loop
ends. A store at an index beyond the vector is kept in the map and in `stores`. -/
def loadLoop : List Int → Nat → (Nat → Int) → List Nat → LoadResult
  | [], index, RAM, stores => { index := index, RAM := RAM, stores := stores }
  | v :: rest, index, RAM, stores =>
    let RAM1 : Nat → Int := fun i => if i = index then v else RAM i
    let stores1 := stores ++ [index]
    if index < RAM_SIZE then loadLoop rest (index + 1) RAM1 stores1
    else { index := index, RAM := RAM1, stores := stores1 }

/-- The load-from-file branch of the menu on a file holding `values`:
`int index = 0;` followed by the loop. -/
def loadFromFile (RAM : Nat → Int) (values : List Int) : LoadResult :=
  loadLoop values 0 RAM []

/-- A state that no call sequence reaches: the initial state with a valid line of tag `0`
and words `7` planted in way `0` of set `1`. Address `8` has write-path set `1` and
tag `0`, and read-path set `0`. -/
def plantedState : State :=
  { initState with
    cache := setLine initState.cache 1 0
      { valid := true, tag := 0, data := fun _ => 7, fifo_time := 0 } }

/-- The facts about the line metadata and the counters that every reachable state
satisfies: valid lines sit inside the cache and carry a tag of their set's range, tags
are not duplicated within a set, the two miss-driven counters equal the number of valid
lines, and stamps of valid lines are below `globalTime` and pairwise distinct. -/
structure Inv (s : State) : Prop where
  tagRange : ∀ set way, (s.cache set way).valid = true →
    set < CACHE_NUM_SETS ∧ way < CACHE_WAYS ∧
      (4 * set : Int) ≤ (s.cache set way).tag ∧ (s.cache set way).tag ≤ 4 * set + 3
  noDup : ∀ set w1 w2, (s.cache set w1).valid = true → (s.cache set w2).valid = true →
    (s.cache set w1).tag = (s.cache set w2).tag → w1 = w2
  counters : s.missCount = s.globalTime ∧ s.globalTime = validCount s.cache
  stampLt : ∀ set way, (s.cache set way).valid = true →
    (s.cache set way).fifo_time < s.globalTime
  stampInj : ∀ set1 way1 set2 way2, (s.cache set1 way1).valid = true →
    (s.cache set2 way2).valid = true →
    (s.cache set1 way1).fifo_time = (s.cache set2 way2).fifo_time →
    set1 = set2 ∧ way1 = way2

/-! ## Basic facts about the embedding -/

theorem ways_list : List.range CACHE_WAYS = [0, 1, 2, 3] := by decide

theorem num_sets_eq : CACHE_NUM_SETS = 4 := by decide

theorem readFromAddress_invalid (s : State) (a : Int) (h : a < 0 ∨ a ≥ (RAM_SIZE : Int)) :
    readFromAddress s a = (-1, s) := by
  simp [readFromAddress, h]

theorem writeToAddress_invalid (s : State) (a v : Int) (h : a < 0 ∨ a ≥ (RAM_SIZE : Int)) :
    writeToAddress s a v = s := by
  simp [writeToAddress, h]

theorem readFromAddress_RAM (s : State) (a : Int) : (readFromAddress s a).2.RAM = s.RAM := by
  unfold readFromAddress
  split
  · rfl
  · dsimp only
    split <;> rfl

theorem writeToAddress_RAM (s : State) (a v : Int) (h0 : 0 ≤ a) (h1 : a < (RAM_SIZE : Int)) :
    (writeToAddress s a v).RAM = fun i => if i = a.toNat then v else s.RAM i := by
  have hg : ¬ (a < 0 ∨ a ≥ (RAM_SIZE : Int)) := by omega
  unfold writeToAddress
  rw [if_neg hg]
  dsimp only
  split
  · rfl
  · split
    · simp only [readFromAddress_RAM]
    · simp only [readFromAddress_RAM]

/-! ## Claims -/

/-- C3: an address outside `[0, RAM_SIZE)` is rejected without mutation:
`readFromAddress` returns the sentinel `-1` and `writeToAddress` returns, and in both
cases the whole state (RAM, every cache line, `hitCount`, `missCount`, `globalTime`) is
exactly the state before the call. -/
theorem invalid_address_rejected (s : State) (a v : Int)
    (h : a < 0 ∨ a ≥ (RAM_SIZE : Int)) :
    (readFromAddress s a).1 = -1 ∧ (readFromAddress s a).2 = s ∧ writeToAddress s a v = s := by
  rw [readFromAddress_invalid s a h, writeToAddress_invalid s a v h]
  exact ⟨rfl, rfl, rfl⟩

theorem invalid_address_rejected_witness :
    ((512 : Int) < 0 ∨ (512 : Int) ≥ (RAM_SIZE : Int)) ∧
      ((readFromAddress initState 512).1 = -1 ∧ (readFromAddress initState 512).2 = initState ∧
        writeToAddress initState 512 7 = initState) :=
  ⟨by decide, invalid_address_rejected initState 512 7 (by decide)⟩

/-- C4: write-through with frame: after `writeToAddress(a, v)` with `a` in range, `RAM[a]`
is `v` and every other word of RAM is unchanged; and `readFromAddress` never changes any
word of RAM, whatever its argument. -/
theorem write_through_frame (s : State) (a v : Int) (h0 : 0 ≤ a) (h1 : a < (RAM_SIZE : Int)) :
    (writeToAddress s a v).RAM a.toNat = v ∧
      (∀ i : Nat, i ≠ a.toNat → (writeToAddress s a v).RAM i = s.RAM i) ∧
      (∀ (t : State) (b : Int) (i : Nat), (readFromAddress t b).2.RAM i = t.RAM i) := by
  rw [writeToAddress_RAM s a v h0 h1]
  refine ⟨by simp, ?_, ?_⟩
  · intro i hi
    simp [hi]
  · intro t b i
    rw [readFromAddress_RAM]

theorem write_through_frame_witness :
    ((0 : Int) ≤ 8 ∧ (8 : Int) < (RAM_SIZE : Int)) ∧
      ((writeToAddress initState 8 99).RAM (8 : Int).toNat = 99 ∧
        (∀ i : Nat, i ≠ (8 : Int).toNat →
          (writeToAddress initState 8 99).RAM i = initState.RAM i) ∧
        (∀ (t : State) (b : Int) (i : Nat), (readFromAddress t b).2.RAM i = t.RAM i)) :=
  ⟨by decide, write_through_frame initState 8 99 (by decide) (by decide)⟩

/-- C5: the read path and the write path do not use one decomposition rule. At address
`8` the read path computes `(set, tag, offset) = (0, 0, 0)` and the write path computes
`(1, 0, 0)`, so the triples are not equal on all of `[0, RAM_SIZE)`. -/
theorem read_write_decompose_differ :
    8 < RAM_SIZE ∧ readDecompose 8 = (0, 0, 0) ∧ writeDecompose 8 = (1, 0, 0) ∧
      ¬ (∀ a : Nat, a < RAM_SIZE → readDecompose a = writeDecompose a) := by
  refine ⟨by decide, by decide, by decide, ?_⟩
  intro h
  exact absurd (h 8 (by decide)) (by decide)

/-- C6: the read path's decomposition is not injective. Addresses `0` and `8` lie in
different aligned `BLOCK_SIZE`-word blocks and yet get the same
`(set, tag, offset) = (0, 0, 0)`. -/
theorem read_decompose_not_injective :
    0 < RAM_SIZE ∧ 8 < RAM_SIZE ∧ readDecompose 0 = readDecompose 8 ∧
      0 / BLOCK_SIZE ≠ 8 / BLOCK_SIZE ∧
      ¬ (∀ a b : Nat, a < RAM_SIZE → b < RAM_SIZE → a ≠ b →
          readDecompose a ≠ readDecompose b) := by
  refine ⟨by decide, by decide, by decide, by decide, ?_⟩
  intro h
  exact h 0 8 (by decide) (by decide) (by decide) (by decide)

/-- C7: canonical decomposition on the write path. For an address `a` in
`[0, RAM_SIZE)`, `writeToAddress` works with `blockNumber = a / BLOCK_SIZE`,
`offset = a % BLOCK_SIZE`, `setIndex = blockNumber % CACHE_NUM_SETS` and
`tag = blockNumber / CACHE_NUM_SETS`; the set index is below `CACHE_NUM_SETS`, the offset
below `BLOCK_SIZE`, `blockNumber = setIndex + tag * CACHE_NUM_SETS`,
`a = blockNumber * BLOCK_SIZE + offset`, and any in-range address with the same
write-path triple is `a` itself. -/
theorem write_decompose_canonical (a : Nat) (_ha : a < RAM_SIZE) :
    writeBlockNumber a = a / BLOCK_SIZE ∧
      writeOffset a = a % BLOCK_SIZE ∧
      writeSetIndex a = writeBlockNumber a % CACHE_NUM_SETS ∧
      writeTag a = writeBlockNumber a / CACHE_NUM_SETS ∧
      writeSetIndex a < CACHE_NUM_SETS ∧
      writeOffset a < BLOCK_SIZE ∧
      writeBlockNumber a = writeSetIndex a + writeTag a * CACHE_NUM_SETS ∧
      a = writeBlockNumber a * BLOCK_SIZE + writeOffset a ∧
      (∀ b : Nat, b < RAM_SIZE → writeDecompose b = writeDecompose a → b = a) := by
  have hs : CACHE_NUM_SETS = 4 := num_sets_eq
  have hb : BLOCK_SIZE = 8 := rfl
  refine ⟨rfl, rfl, rfl, rfl, ?_, ?_, ?_, ?_, ?_⟩
  · unfold writeSetIndex
    rw [hs]
    omega
  · unfold writeOffset
    rw [hb]
    omega
  · unfold writeSetIndex writeTag
    rw [hs]
    omega
  · unfold writeBlockNumber writeOffset
    rw [hb]
    omega
  · intro b _ hEq
    unfold writeDecompose writeSetIndex writeTag writeOffset writeBlockNumber at hEq
    rw [hs, hb] at hEq
    simp only [Prod.mk.injEq] at hEq
    omega

theorem write_decompose_canonical_witness :
    300 < RAM_SIZE ∧
      (writeBlockNumber 300 = 300 / BLOCK_SIZE ∧
        writeOffset 300 = 300 % BLOCK_SIZE ∧
        writeSetIndex 300 = writeBlockNumber 300 % CACHE_NUM_SETS ∧
        writeTag 300 = writeBlockNumber 300 / CACHE_NUM_SETS ∧
        writeSetIndex 300 < CACHE_NUM_SETS ∧
        writeOffset 300 < BLOCK_SIZE ∧
        writeBlockNumber 300 = writeSetIndex 300 + writeTag 300 * CACHE_NUM_SETS ∧
        300 = writeBlockNumber 300 * BLOCK_SIZE + writeOffset 300 ∧
        (∀ b : Nat, b < RAM_SIZE → writeDecompose b = writeDecompose 300 → b = 300)) :=
  ⟨by decide, write_decompose_canonical 300 (by decide)⟩

/-- C1: write-then-read does not round-trip. From the initial state,
`readFromAddress(0)` leads to a reachable state in which `writeToAddress(8, 99)`
followed by `readFromAddress(8)` returns `0`, not `99`, although `RAM[8]` is `99`. -/
theorem write_then_read_returns_stale :
    Reachable (readFromAddress initState 0).2 ∧
      (readFromAddress (writeToAddress (readFromAddress initState 0).2 8 99) 8).1 = 0 ∧
      (writeToAddress (readFromAddress initState 0).2 8 99).RAM 8 = 99 ∧
      ¬ (∀ s : State, Reachable s → ∀ a v : Int, 0 ≤ a → a < (RAM_SIZE : Int) →
          (readFromAddress (writeToAddress s a v) a).1 = v) := by
  have hr : Reachable (readFromAddress initState 0).2 := ⟨[Op.read 0], rfl⟩
  refine ⟨hr, by decide, by decide, ?_⟩
  intro h
  exact absurd (h _ hr 8 99 (by decide) (by decide)) (by decide)

/-- C2: the cache is not transparent. From the initial state, after
`readFromAddress(0)` the call `readFromAddress(8)` is a hit on the line loaded for
block `0` and returns `0`, while `RAM[8]` is `8`. -/
theorem read_hit_returns_other_block :
    Reachable (readFromAddress initState 0).2 ∧
      (readFromAddress initState 0).2.RAM 8 = 8 ∧
      (readFromAddress (readFromAddress initState 0).2 8).1 = 0 ∧
      (readFromAddress (readFromAddress initState 0).2 8).2.hitCount = 1 ∧
      ¬ (∀ s : State, Reachable s → ∀ a : Int, 0 ≤ a → a < (RAM_SIZE : Int) →
          (readFromAddress s a).1 = s.RAM a.toNat) := by
  have hr : Reachable (readFromAddress initState 0).2 := ⟨[Op.read 0], rfl⟩
  refine ⟨hr, by decide, by decide, by decide, ?_⟩
  intro h
  exact absurd (h _ hr 8 (by decide) (by decide)) (by decide)

/-! ## Probing after a read -/

theorem find_unique {l : List Nat} {p : Nat → Bool} {r : Nat} (hr : r ∈ l)
    (hp : ∀ w ∈ l, p w = true ↔ w = r) : l.find? p = some r := by
  induction l with
  | nil => simp at hr
  | cons x xs ih =>
    by_cases hx : x = r
    · subst hx
      have hpx : p x = true := (hp x (List.mem_cons_self _ _)).2 rfl
      simp [List.find?, hpx]
    · have hpx : p x = false := by
        cases h : p x
        · rfl
        · exact absurd ((hp x (List.mem_cons_self _ _)).1 h) hx
      simp only [List.find?, hpx]
      apply ih
      · rcases List.mem_cons.1 hr with h | h
        · exact absurd h.symm hx
        · exact h
      · intro w hw
        exact hp w (List.mem_cons_of_mem _ hw)

theorem findWay_some {c : Nat → Nat → CacheLine} {setIndex : Nat} {tag : Int} {w : Nat}
    (h : findWay c setIndex tag = some w) :
    w < CACHE_WAYS ∧ (c setIndex w).valid = true ∧ (c setIndex w).tag = tag := by
  unfold findWay at h
  have hm := List.mem_of_find?_eq_some h
  have hp := List.find?_some h
  simp only [Bool.and_eq_true, decide_eq_true_eq] at hp
  exact ⟨List.mem_range.1 hm, hp.1, hp.2⟩

theorem findWay_none {c : Nat → Nat → CacheLine} {setIndex : Nat} {tag : Int}
    (h : findWay c setIndex tag = none) (w : Nat) (hw : w < CACHE_WAYS) :
    ¬ ((c setIndex w).valid = true ∧ (c setIndex w).tag = tag) := by
  unfold findWay at h
  rw [List.find?_eq_none] at h
  have := h w (List.mem_range.2 hw)
  simpa only [Bool.and_eq_true, decide_eq_true_eq] using this

theorem findEmpty_lt {c : Nat → Nat → CacheLine} {setIndex w : Nat}
    (h : findEmpty c setIndex = some w) : w < CACHE_WAYS := by
  unfold findEmpty at h
  exact List.mem_range.1 (List.mem_of_find?_eq_some h)

theorem oldestWay_lt (c : Nat → Nat → CacheLine) (setIndex : Nat) :
    oldestWay c setIndex < CACHE_WAYS := by
  have hl : List.range' 1 (CACHE_WAYS - 1) = [1, 2, 3] := by decide
  unfold oldestWay
  rw [hl]
  simp only [List.foldl]
  have h4 : CACHE_WAYS = 4 := rfl
  rw [h4]
  split_ifs <;> simp

theorem selectReplaceIndex_lt (c : Nat → Nat → CacheLine) (setIndex : Nat) :
    selectReplaceIndex c setIndex < CACHE_WAYS := by
  unfold selectReplaceIndex
  split
  · next w hw => exact findEmpty_lt hw
  · exact oldestWay_lt c setIndex

theorem readFromAddress_hit (s : State) (a : Int) (h0 : 0 ≤ a) (h1 : a < (RAM_SIZE : Int))
    (w : Nat) (hw : findWay s.cache (readSetIndex a.toNat) (readTag a.toNat : Int) = some w) :
    readFromAddress s a =
      ((s.cache (readSetIndex a.toNat) w).data (readOffset a.toNat),
        { s with hitCount := (s.hitCount + 1) % (ULONG_MAX + 1) }) := by
  have hg : ¬ (a < 0 ∨ a ≥ (RAM_SIZE : Int)) := by omega
  unfold readFromAddress
  rw [if_neg hg]
  simp only [hw]

theorem readFromAddress_miss (s : State) (a : Int) (h0 : 0 ≤ a) (h1 : a < (RAM_SIZE : Int))
    (hw : findWay s.cache (readSetIndex a.toNat) (readTag a.toNat : Int) = none) :
    readFromAddress s a =
      (loadData s.RAM (readBlockNumber a.toNat) (readLineIndex a.toNat)
          (s.cache (readSetIndex a.toNat)
            (selectReplaceIndex s.cache (readSetIndex a.toNat))).data (readOffset a.toNat),
        { s with
          missCount := (s.missCount + 1) % (ULONG_MAX + 1)
          globalTime := (s.globalTime + 1) % (ULONG_MAX + 1)
          cache := setLine s.cache (readSetIndex a.toNat)
            (selectReplaceIndex s.cache (readSetIndex a.toNat))
            { valid := true
              tag := (readTag a.toNat : Int)
              fifo_time := s.globalTime
              data := loadData s.RAM (readBlockNumber a.toNat) (readLineIndex a.toNat)
                (s.cache (readSetIndex a.toNat)
                  (selectReplaceIndex s.cache (readSetIndex a.toNat))).data } }) := by
  have hg : ¬ (a < 0 ∨ a ≥ (RAM_SIZE : Int)) := by omega
  unfold readFromAddress
  rw [if_neg hg]
  simp only [hw]

/-- After a line carrying `tag` has been stored in way `r` of a set in which no way
matched `tag`, the probe finds exactly way `r`. -/
theorem findWay_setLine (c : Nat → Nat → CacheLine) (setIndex r : Nat) (tag : Int)
    (l : CacheLine) (hnone : findWay c setIndex tag = none) (hr : r < CACHE_WAYS)
    (hv : l.valid = true) (ht : l.tag = tag) :
    findWay (setLine c setIndex r l) setIndex tag = some r := by
  unfold findWay
  apply find_unique (List.mem_range.2 hr)
  intro w hw
  have hw4 := List.mem_range.1 hw
  by_cases hwr : w = r
  · subst hwr
    simp [setLine, hv, ht]
  · have hold := findWay_none hnone w hw4
    simp only [setLine, hwr, and_false, if_false, Bool.and_eq_true, decide_eq_true_eq,
      iff_false]
    exact hold

/-- After `readFromAddress(a)` with `a` in range, the probe for `a` succeeds and the word
found at `a`'s offset is the word that was returned. -/
theorem probe_after_read (s : State) (a : Int) (h0 : 0 ≤ a) (h1 : a < (RAM_SIZE : Int)) :
    ∃ w, findWay (readFromAddress s a).2.cache (readSetIndex a.toNat) (readTag a.toNat : Int)
          = some w ∧
      ((readFromAddress s a).2.cache (readSetIndex a.toNat) w).data (readOffset a.toNat)
        = (readFromAddress s a).1 := by
  cases hw : findWay s.cache (readSetIndex a.toNat) (readTag a.toNat : Int) with
  | some w =>
    rw [readFromAddress_hit s a h0 h1 w hw]
    exact ⟨w, hw, rfl⟩
  | none =>
    rw [readFromAddress_miss s a h0 h1 hw]
    refine ⟨selectReplaceIndex s.cache (readSetIndex a.toNat), ?_, ?_⟩
    · exact findWay_setLine _ _ _ _ _ hw (selectReplaceIndex_lt _ _) rfl rfl
    · simp [setLine]

/-- Consecutive reads of an address whose line is resident are all hits. -/
theorem readRepeat_resident (n : Nat) (s : State) (a : Int) (h0 : 0 ≤ a)
    (h1 : a < (RAM_SIZE : Int)) (w : Nat)
    (hw : findWay s.cache (readSetIndex a.toNat) (readTag a.toNat : Int) = some w) :
    readRepeat n s a =
      (List.replicate n ((s.cache (readSetIndex a.toNat) w).data (readOffset a.toNat)),
        { s with
          hitCount := if n = 0 then s.hitCount else (s.hitCount + n) % (ULONG_MAX + 1) }) := by
  induction n generalizing s with
  | zero => rfl
  | succ n ih =>
    unfold readRepeat
    rw [readFromAddress_hit s a h0 h1 w hw]
    dsimp only
    rw [ih { s with hitCount := (s.hitCount + 1) % (ULONG_MAX + 1) } hw]
    have hk : (if n = 0 then (s.hitCount + 1) % (ULONG_MAX + 1)
        else ((s.hitCount + 1) % (ULONG_MAX + 1) + n) % (ULONG_MAX + 1))
        = (s.hitCount + (n + 1)) % (ULONG_MAX + 1) := by
      by_cases hn : n = 0
      · subst hn
        rfl
      · rw [if_neg hn, Nat.mod_add_mod]
        congr 1
        omega
    simp only [hk, List.replicate_succ, Nat.add_one_ne_zero, if_false]

/-- C8, as corrected: repeatability of hits. In every state, for every address `a` in
range and every `n ≥ 1`, after one `readFromAddress(a)` the next `n` consecutive calls
`readFromAddress(a)` leave `missCount` unchanged, raise `hitCount` by `n` in
`unsigned long` arithmetic (by exactly `n` when that does not exceed `ULONG_MAX`), and
each returns the value returned by the first read. -/
theorem repeated_reads_are_hits (s : State) (a : Int) (n : Nat) (h0 : 0 ≤ a)
    (h1 : a < (RAM_SIZE : Int)) (hn : 1 ≤ n) :
    (readRepeat n (readFromAddress s a).2 a).2.missCount = (readFromAddress s a).2.missCount ∧
      (readRepeat n (readFromAddress s a).2 a).2.hitCount
        = ((readFromAddress s a).2.hitCount + n) % (ULONG_MAX + 1) ∧
      ((readFromAddress s a).2.hitCount + n ≤ ULONG_MAX →
        (readRepeat n (readFromAddress s a).2 a).2.hitCount
          = (readFromAddress s a).2.hitCount + n) ∧
      (readRepeat n (readFromAddress s a).2 a).1 = List.replicate n (readFromAddress s a).1 := by
  obtain ⟨w, hw, hv⟩ := probe_after_read s a h0 h1
  have hn0 : n ≠ 0 := by omega
  rw [readRepeat_resident n _ a h0 h1 w hw, hv]
  dsimp only
  rw [if_neg hn0]
  refine ⟨rfl, rfl, ?_, rfl⟩
  intro hle
  exact Nat.mod_eq_of_lt (by omega)

theorem repeated_reads_are_hits_witness :
    ((0 : Int) ≤ 40 ∧ (40 : Int) < (RAM_SIZE : Int) ∧ 1 ≤ 3) ∧
      ((readRepeat 3 (readFromAddress initState 40).2 40).2.missCount
          = (readFromAddress initState 40).2.missCount ∧
        (readRepeat 3 (readFromAddress initState 40).2 40).2.hitCount
          = ((readFromAddress initState 40).2.hitCount + 3) % (ULONG_MAX + 1) ∧
        ((readFromAddress initState 40).2.hitCount + 3 ≤ ULONG_MAX →
          (readRepeat 3 (readFromAddress initState 40).2 40).2.hitCount
            = (readFromAddress initState 40).2.hitCount + 3) ∧
        (readRepeat 3 (readFromAddress initState 40).2 40).1
          = List.replicate 3 (readFromAddress initState 40).1) :=
  ⟨by decide, repeated_reads_are_hits initState 40 3 (by decide) (by decide) (by decide)⟩

/-- C8, as stated, fails where `hitCount` is `ULONG_MAX`: from the initial state with
that counter value, `readFromAddress(0)` is a miss and leaves `hitCount` at `ULONG_MAX`,
and the next `readFromAddress(0)` is a hit that wraps `hitCount` to `0`, so `hitCount`
has not grown by `1`. -/
theorem repeated_reads_wrap_hitCount :
    (readFromAddress { initState with hitCount := ULONG_MAX } 0).2.hitCount = ULONG_MAX ∧
      (readRepeat 1 (readFromAddress { initState with hitCount := ULONG_MAX } 0).2 0).2.hitCount
        = 0 ∧
      (readRepeat 1 (readFromAddress { initState with hitCount := ULONG_MAX } 0).2 0).2.missCount
        = (readFromAddress { initState with hitCount := ULONG_MAX } 0).2.missCount ∧
      ¬ (∀ (s : State) (a : Int) (n : Nat), 0 ≤ a → a < (RAM_SIZE : Int) → 1 ≤ n →
          (readRepeat n (readFromAddress s a).2 a).2.hitCount
            = (readFromAddress s a).2.hitCount + n) := by
  refine ⟨by decide, by decide, by decide, ?_⟩
  intro h
  exact absurd (h { initState with hitCount := ULONG_MAX } 0 1 (by decide) (by decide)
    (by decide)) (by decide)

/-! ## Filling a set -/

theorem fourReads_probe (t : Nat) (ht : t < 4) :
    findWay fourReads.cache 0 (t : Int) = some t := by
  interval_cases t <;> decide

/-- C9: the fifth block evicts nothing. After reads of addresses `0`, `32`, `64`, `96`
from the initial state, set `0` is full: way `w` is valid with tag `w` and stamp `w`.
The read of address `8`, a fifth distinct block of set `0`, is counted as a hit and
returns `0`; the read of address `128` loads a line into set `1`; and after a read of
any in-range address the four lines of set `0` are still valid with their tags and
stamps, so the line loaded first is never evicted. -/
theorem fifth_block_evicts_nothing :
    (fourReads.missCount = 4 ∧ fourReads.hitCount = 0) ∧
      (∀ w : Nat, w < 4 → (fourReads.cache 0 w).valid = true ∧
        (fourReads.cache 0 w).tag = (w : Int) ∧ (fourReads.cache 0 w).fifo_time = w) ∧
      ((readFromAddress fourReads 8).2.missCount = 4 ∧
        (readFromAddress fourReads 8).2.hitCount = 1 ∧
        (readFromAddress fourReads 8).1 = 0 ∧ fourReads.RAM 8 = 8) ∧
      (readSetIndex 128 = 1 ∧ writeSetIndex 128 = 0 ∧
        ((readFromAddress fourReads 128).2.cache 1 0).valid = true ∧
        ((readFromAddress fourReads 128).2.cache 1 0).tag = 4) ∧
      (∀ a : Int, 0 ≤ a → a < (RAM_SIZE : Int) → ∀ w : Nat, w < 4 →
        ((readFromAddress fourReads a).2.cache 0 w).valid = true ∧
        ((readFromAddress fourReads a).2.cache 0 w).tag = (w : Int) ∧
        ((readFromAddress fourReads a).2.cache 0 w).fifo_time = w) := by
  have full : ∀ w : Nat, w < 4 → (fourReads.cache 0 w).valid = true ∧
      (fourReads.cache 0 w).tag = (w : Int) ∧ (fourReads.cache 0 w).fifo_time = w := by
    decide
  refine ⟨by decide, full, by decide, by decide, ?_⟩
  intro a h0 h1 w hw4
  cases hw : findWay fourReads.cache (readSetIndex a.toNat) (readTag a.toNat : Int) with
  | some w' =>
    rw [readFromAddress_hit _ a h0 h1 w' hw]
    exact full w hw4
  | none =>
    rw [readFromAddress_miss _ a h0 h1 hw]
    have hset : readSetIndex a.toNat ≠ 0 := by
      intro h
      have hr : RAM_SIZE = 512 := rfl
      have hlt : a.toNat < 512 := by omega
      have htag : readTag a.toNat < 4 := by
        unfold readSetIndex readBlockNumber at h
        rw [num_sets_eq] at h
        unfold readTag readBlockNumber
        omega
      rw [h, fourReads_probe _ htag] at hw
      exact Option.noConfusion hw
    have hne : ¬ (0 = readSetIndex a.toNat ∧
        w = selectReplaceIndex fourReads.cache (readSetIndex a.toNat)) :=
      fun h => hset h.1.symm
    simp only [setLine, hne, if_false]
    exact full w hw4

/-! ## Access accounting -/

theorem ulong_mod_eq : ULONG_MAX + 1 = 18446744073709551616 := rfl

/-- An in-range read adds one to exactly one of the two counters, in `unsigned long`
arithmetic, and keeps both within range. -/
theorem readFromAddress_counters (s : State) (a : Int) (h0 : 0 ≤ a)
    (h1 : a < (RAM_SIZE : Int)) :
    ∃ dh dm : Nat, dh + dm = 1 ∧
      (readFromAddress s a).2.hitCount % (ULONG_MAX + 1)
        = (s.hitCount + dh) % (ULONG_MAX + 1) ∧
      (readFromAddress s a).2.missCount % (ULONG_MAX + 1)
        = (s.missCount + dm) % (ULONG_MAX + 1) ∧
      (s.hitCount ≤ ULONG_MAX → (readFromAddress s a).2.hitCount ≤ ULONG_MAX) ∧
      (s.missCount ≤ ULONG_MAX → (readFromAddress s a).2.missCount ≤ ULONG_MAX) := by
  have hM : ULONG_MAX = 18446744073709551615 := rfl
  cases hw : findWay s.cache (readSetIndex a.toNat) (readTag a.toNat : Int) with
  | some w =>
    rw [readFromAddress_hit s a h0 h1 w hw]
    dsimp only
    rw [ulong_mod_eq]
    exact ⟨1, 0, rfl, by omega, by omega, by omega, by omega⟩
  | none =>
    rw [readFromAddress_miss s a h0 h1 hw]
    dsimp only
    rw [ulong_mod_eq]
    exact ⟨0, 1, rfl, by omega, by omega, by omega, by omega⟩

theorem writeToAddress_counters_hit (s : State) (a v : Int) (h0 : 0 ≤ a)
    (h1 : a < (RAM_SIZE : Int)) (w : Nat)
    (hw : findWay s.cache (writeSetIndex a.toNat) (writeTag a.toNat : Int) = some w) :
    (writeToAddress s a v).hitCount = s.hitCount ∧
      (writeToAddress s a v).missCount = s.missCount := by
  have hg : ¬ (a < 0 ∨ a ≥ (RAM_SIZE : Int)) := by omega
  unfold writeToAddress
  rw [if_neg hg]
  simp only [hw, and_self]

theorem writeToAddress_counters_miss (s : State) (a v : Int) (h0 : 0 ≤ a)
    (h1 : a < (RAM_SIZE : Int))
    (hw : findWay s.cache (writeSetIndex a.toNat) (writeTag a.toNat : Int) = none) :
    (writeToAddress s a v).hitCount
        = (readFromAddress { s with RAM := fun i => if i = a.toNat then v else s.RAM i }
            a).2.hitCount ∧
      (writeToAddress s a v).missCount
        = (readFromAddress { s with RAM := fun i => if i = a.toNat then v else s.RAM i }
            a).2.missCount := by
  have hg : ¬ (a < 0 ∨ a ≥ (RAM_SIZE : Int)) := by omega
  unfold writeToAddress
  rw [if_neg hg]
  simp only [hw]
  split
  · exact ⟨rfl, rfl⟩
  · exact ⟨rfl, rfl⟩

theorem step_counters (s : State) (op : Op) :
    ∃ dh dm : Nat, dh + dm = counted s op ∧
      (step s op).hitCount % (ULONG_MAX + 1) = (s.hitCount + dh) % (ULONG_MAX + 1) ∧
      (step s op).missCount % (ULONG_MAX + 1) = (s.missCount + dm) % (ULONG_MAX + 1) ∧
      (s.hitCount ≤ ULONG_MAX → (step s op).hitCount ≤ ULONG_MAX) ∧
      (s.missCount ≤ ULONG_MAX → (step s op).missCount ≤ ULONG_MAX) := by
  cases op with
  | read a =>
    by_cases h : 0 ≤ a ∧ a < (RAM_SIZE : Int)
    · simp only [step, counted, h, and_self, if_true]
      exact readFromAddress_counters s a h.1 h.2
    · have hg : a < 0 ∨ a ≥ (RAM_SIZE : Int) := by omega
      simp only [step, counted, h, if_false, readFromAddress_invalid s a hg]
      exact ⟨0, 0, rfl, rfl, rfl, id, id⟩
  | write a v =>
    by_cases h : 0 ≤ a ∧ a < (RAM_SIZE : Int)
    · cases hw : findWay s.cache (writeSetIndex a.toNat) (writeTag a.toNat : Int) with
      | some w =>
        obtain ⟨e1, e2⟩ := writeToAddress_counters_hit s a v h.1 h.2 w hw
        have hc : ¬ (0 ≤ a ∧ a < (RAM_SIZE : Int) ∧ some w = (none : Option Nat)) :=
          fun hh => Option.noConfusion hh.2.2
        simp only [step, counted, hw, e1, e2, hc, if_false]
        exact ⟨0, 0, rfl, rfl, rfl, id, id⟩
      | none =>
        obtain ⟨e1, e2⟩ := writeToAddress_counters_miss s a v h.1 h.2 hw
        simp only [step, counted, hw, h, and_self, if_true, e1, e2]
        exact readFromAddress_counters
          { s with RAM := fun i => if i = a.toNat then v else s.RAM i } a h.1 h.2
    · have hg : a < 0 ∨ a ≥ (RAM_SIZE : Int) := by omega
      have hc : ¬ (0 ≤ a ∧ a < (RAM_SIZE : Int) ∧
          findWay s.cache (writeSetIndex a.toNat) (writeTag a.toNat : Int) = none) :=
        fun hh => h ⟨hh.1, hh.2.1⟩
      simp only [step, counted, hc, if_false, writeToAddress_invalid s a v hg]
      exact ⟨0, 0, rfl, rfl, rfl, id, id⟩

theorem run_counters (ops : List Op) (s : State) :
    ∃ nh nm : Nat, nh + nm = countedCalls s ops ∧
      (run s ops).hitCount % (ULONG_MAX + 1) = (s.hitCount + nh) % (ULONG_MAX + 1) ∧
      (run s ops).missCount % (ULONG_MAX + 1) = (s.missCount + nm) % (ULONG_MAX + 1) ∧
      (s.hitCount ≤ ULONG_MAX → (run s ops).hitCount ≤ ULONG_MAX) ∧
      (s.missCount ≤ ULONG_MAX → (run s ops).missCount ≤ ULONG_MAX) := by
  induction ops generalizing s with
  | nil => exact ⟨0, 0, rfl, rfl, rfl, id, id⟩
  | cons op ops ih =>
    have hrun : run s (op :: ops) = run (step s op) ops := rfl
    obtain ⟨dh, dm, hd, h1, h2, h3, h4⟩ := step_counters s op
    obtain ⟨nh, nm, hn, k1, k2, k3, k4⟩ := ih (step s op)
    rw [hrun]
    refine ⟨dh + nh, dm + nm, ?_, ?_, ?_, fun hb => k3 (h3 hb), fun hb => k4 (h4 hb)⟩
    · simp only [countedCalls]
      omega
    · rw [ulong_mod_eq] at h1 k1 ⊢
      omega
    · rw [ulong_mod_eq] at h2 k2 ⊢
      omega

/-- C10, as corrected: access accounting. After any finite sequence of
`readFromAddress` / `writeToAddress` calls executed from the initial state,
`hitCount + missCount`, computed in `unsigned long` arithmetic, equals the number of
reads with an in-range address plus the number of in-range writes whose own probe
missed; the two are equal as numbers whenever that count does not exceed `ULONG_MAX`.
Write hits and out-of-range calls add nothing. -/
theorem access_accounting (ops : List Op) :
    ((run initState ops).hitCount + (run initState ops).missCount) % (ULONG_MAX + 1)
        = countedCalls initState ops % (ULONG_MAX + 1) ∧
      (countedCalls initState ops ≤ ULONG_MAX →
        (run initState ops).hitCount + (run initState ops).missCount
          = countedCalls initState ops) := by
  obtain ⟨nh, nm, hn, k1, k2, k3, k4⟩ := run_counters ops initState
  have hM : ULONG_MAX = 18446744073709551615 := rfl
  have i1 : initState.hitCount = 0 := rfl
  have i2 : initState.missCount = 0 := rfl
  have b1 := k3 (by rw [i1]; exact Nat.zero_le _)
  have b2 := k4 (by rw [i2]; exact Nat.zero_le _)
  rw [i1] at k1
  rw [i2] at k2
  rw [ulong_mod_eq] at k1 k2 ⊢
  constructor
  · omega
  · intro hle
    omega

theorem run_cons (s : State) (op : Op) (ops : List Op) :
    run s (op :: ops) = run (step s op) ops := rfl

theorem step_read (s : State) (a : Int) : step s (Op.read a) = (readFromAddress s a).2 := rfl

theorem run_replicate_read (a : Int) (n : Nat) (s : State) :
    run s (List.replicate n (Op.read a)) = (readRepeat n s a).2 := by
  induction n generalizing s with
  | zero => rfl
  | succ n ih =>
    have hrun : run s (Op.read a :: List.replicate n (Op.read a))
        = run (step s (Op.read a)) (List.replicate n (Op.read a)) := rfl
    rw [List.replicate_succ, hrun, ih]
    rfl

theorem countedCalls_replicate_read (a : Int) (h0 : 0 ≤ a) (h1 : a < (RAM_SIZE : Int))
    (n : Nat) (s : State) : countedCalls s (List.replicate n (Op.read a)) = n := by
  induction n generalizing s with
  | zero => rfl
  | succ n ih =>
    rw [List.replicate_succ]
    simp only [countedCalls, counted, h0, h1, and_self, if_true, ih]
    omega

/-- C10, as stated, fails for a sequence that outruns the counter: after
`ULONG_MAX + 2` calls `readFromAddress(0)` from the initial state (one miss and
`ULONG_MAX + 1` hits) `hitCount` is back at `0` and `missCount` is `1`, while the
number of in-range reads is `ULONG_MAX + 2`. -/
theorem access_accounting_wraps :
    (run initState (List.replicate (ULONG_MAX + 1 + 1) (Op.read 0))).hitCount = 0 ∧
      (run initState (List.replicate (ULONG_MAX + 1 + 1) (Op.read 0))).missCount = 1 ∧
      countedCalls initState (List.replicate (ULONG_MAX + 1 + 1) (Op.read 0))
        = ULONG_MAX + 1 + 1 ∧
      ¬ (∀ ops : List Op,
          (run initState ops).hitCount + (run initState ops).missCount
            = countedCalls initState ops) := by
  have hw : findWay (readFromAddress initState 0).2.cache (readSetIndex (0 : Int).toNat)
      (readTag (0 : Int).toNat : Int) = some 0 := by decide
  have hrun : run initState (List.replicate (ULONG_MAX + 1 + 1) (Op.read 0))
      = { (readFromAddress initState 0).2 with
          hitCount := ((readFromAddress initState 0).2.hitCount + (ULONG_MAX + 1))
            % (ULONG_MAX + 1) } := by
    rw [List.replicate_succ, run_cons, step_read, run_replicate_read,
      readRepeat_resident (ULONG_MAX + 1) _ 0 (by decide) (by decide) 0 hw]
    dsimp only
    rw [if_neg (Nat.succ_ne_zero ULONG_MAX)]
  have hh : (readFromAddress initState 0).2.hitCount = 0 := by decide
  have hm : (readFromAddress initState 0).2.missCount = 1 := by decide
  have hcount := countedCalls_replicate_read 0 (by decide) (by decide) (ULONG_MAX + 1 + 1)
    initState
  have e1 : (run initState (List.replicate (ULONG_MAX + 1 + 1) (Op.read 0))).hitCount = 0 := by
    rw [hrun]
    dsimp only
    rw [hh, Nat.zero_add, Nat.mod_self]
  have e2 : (run initState (List.replicate (ULONG_MAX + 1 + 1) (Op.read 0))).missCount
      = 1 := by
    rw [hrun]
    exact hm
  refine ⟨e1, e2, hcount, ?_⟩
  intro h
  have := h (List.replicate (ULONG_MAX + 1 + 1) (Op.read 0))
  rw [e1, e2, hcount] at this
  omega

/-! ## Address arithmetic of the two paths -/

theorem readTag_eq (a : Nat) : readTag a = a / 32 := by
  unfold readTag readBlockNumber
  omega

theorem writeTag_eq (a : Nat) : writeTag a = a / 32 := by
  unfold writeTag writeBlockNumber
  rw [num_sets_eq]
  have hb : BLOCK_SIZE = 8 := rfl
  rw [hb]
  omega

theorem readSetIndex_eq (a : Nat) (ha : a < RAM_SIZE) : readSetIndex a = a / 128 := by
  have hr : RAM_SIZE = 512 := rfl
  unfold readSetIndex readBlockNumber
  rw [num_sets_eq]
  omega

theorem writeSetIndex_eq (a : Nat) : writeSetIndex a = (a / 8) % 4 := by
  unfold writeSetIndex writeBlockNumber
  rw [num_sets_eq]
  rfl

theorem indices_set_lt (a : Nat) : readSetIndex a < CACHE_NUM_SETS := by
  unfold readSetIndex
  rw [num_sets_eq]
  omega

theorem ramAddress_eq (a : Nat) (i : Nat) :
    readBlockNumber a * 128 + readLineIndex a * BLOCK_SIZE + i = a / BLOCK_SIZE * BLOCK_SIZE + i := by
  have hb : BLOCK_SIZE = 8 := rfl
  unfold readBlockNumber readLineIndex
  rw [hb]
  omega

theorem ramAddress_lt (a : Nat) (ha : a < RAM_SIZE) (i : Nat) (hi : i < BLOCK_SIZE) :
    readBlockNumber a * 128 + readLineIndex a * BLOCK_SIZE + i < RAM_SIZE := by
  have hb : BLOCK_SIZE = 8 := rfl
  have hr : RAM_SIZE = 512 := rfl
  unfold readBlockNumber readLineIndex
  rw [hb] at hi ⊢
  omega

theorem loadData_apply (RAM : Nat → Int) (blockNumber lineIndex : Nat) (old : Nat → Int)
    (j : Nat) :
    loadData RAM blockNumber lineIndex old j =
      if j < BLOCK_SIZE then
        (if blockNumber * 128 + lineIndex * BLOCK_SIZE + j < RAM_SIZE then
          RAM (blockNumber * 128 + lineIndex * BLOCK_SIZE + j) else 0)
      else old j := by
  have hl : List.range BLOCK_SIZE = [0, 1, 2, 3, 4, 5, 6, 7] := by decide
  have hb : BLOCK_SIZE = 8 := rfl
  unfold loadData
  rw [hl]
  simp only [List.foldl]
  by_cases hj : j < BLOCK_SIZE
  · rw [if_pos hj]
    rw [hb] at hj
    interval_cases j <;> simp
  · rw [if_neg hj]
    rw [hb] at hj
    have h0 : j ≠ 0 := by omega
    have h1 : j ≠ 1 := by omega
    have h2 : j ≠ 2 := by omega
    have h3 : j ≠ 3 := by omega
    have h4 : j ≠ 4 := by omega
    have h5 : j ≠ 5 := by omega
    have h6 : j ≠ 6 := by omega
    have h7 : j ≠ 7 := by omega
    simp only [h0, h1, h2, h3, h4, h5, h6, h7, if_false]

/-- C20: exact shape of the read/write addressing discrepancy. For every address `a` in
`[0, RAM_SIZE)` the read path's tag `blockNumber * 4 + (a / 32) % 4` with
`blockNumber = a / 128` equals `a / 32`, which equals the write path's tag
`(a / BLOCK_SIZE) / CACHE_NUM_SETS`; both paths compute the offset `a % BLOCK_SIZE`; the
read path's set index is `a / 128` and the write path's is `(a / 8) % 4`; and the two
triples coincide if and only if `a / 128 = (a / 8) % 4`. -/
theorem decompose_discrepancy (a : Nat) (ha : a < RAM_SIZE) :
    readTag a = readBlockNumber a * 4 + (a / 32) % 4 ∧ readBlockNumber a = a / 128 ∧
      readTag a = a / 32 ∧
      writeTag a = (a / BLOCK_SIZE) / CACHE_NUM_SETS ∧ writeTag a = a / 32 ∧
      readOffset a = a % BLOCK_SIZE ∧ writeOffset a = a % BLOCK_SIZE ∧
      readSetIndex a = a / 128 ∧ writeSetIndex a = (a / 8) % 4 ∧
      (readDecompose a = writeDecompose a ↔ a / 128 = (a / 8) % 4) := by
  refine ⟨rfl, rfl, readTag_eq a, rfl, writeTag_eq a, rfl, rfl, readSetIndex_eq a ha,
    writeSetIndex_eq a, ?_⟩
  unfold readDecompose writeDecompose
  rw [readSetIndex_eq a ha, writeSetIndex_eq a, readTag_eq, writeTag_eq]
  simp only [Prod.mk.injEq]
  constructor
  · intro h
    exact h.1
  · intro h
    exact ⟨h, trivial, rfl⟩

theorem decompose_discrepancy_witness :
    8 < RAM_SIZE ∧
      (readTag 8 = readBlockNumber 8 * 4 + (8 / 32) % 4 ∧ readBlockNumber 8 = 8 / 128 ∧
        readTag 8 = 8 / 32 ∧
        writeTag 8 = (8 / BLOCK_SIZE) / CACHE_NUM_SETS ∧ writeTag 8 = 8 / 32 ∧
        readOffset 8 = 8 % BLOCK_SIZE ∧ writeOffset 8 = 8 % BLOCK_SIZE ∧
        readSetIndex 8 = 8 / 128 ∧ writeSetIndex 8 = (8 / 8) % 4 ∧
        (readDecompose 8 = writeDecompose 8 ↔ 8 / 128 = (8 / 8) % 4)) :=
  ⟨by decide, decompose_discrepancy 8 (by decide)⟩

/-- C16: totality of the core under a validated address. For every address `a` in
`[0, RAM_SIZE)`: the index of the store `RAM[address]` is below `RAM_SIZE`; in both
`readFromAddress` and `writeToAddress` the set index is below `CACHE_NUM_SETS` and the
offset below `BLOCK_SIZE`; every way produced by a probe or by victim selection is below
`CACHE_WAYS`; every `ramAddress` of the block load is below `RAM_SIZE`; and the loaded
words are the words of RAM, the zero fill never being used. -/
theorem indices_in_bounds (a : Int) (h0 : 0 ≤ a) (h1 : a < (RAM_SIZE : Int)) :
    a.toNat < RAM_SIZE ∧
      readSetIndex a.toNat < CACHE_NUM_SETS ∧ readOffset a.toNat < BLOCK_SIZE ∧
      writeSetIndex a.toNat < CACHE_NUM_SETS ∧ writeOffset a.toNat < BLOCK_SIZE ∧
      (∀ (c : Nat → Nat → CacheLine) (setIndex : Nat) (tag : Int) (w : Nat),
        findWay c setIndex tag = some w → w < CACHE_WAYS) ∧
      (∀ (c : Nat → Nat → CacheLine) (setIndex : Nat),
        selectReplaceIndex c setIndex < CACHE_WAYS) ∧
      (∀ i : Nat, i < BLOCK_SIZE →
        readBlockNumber a.toNat * 128 + readLineIndex a.toNat * BLOCK_SIZE + i < RAM_SIZE) ∧
      (∀ (RAM old : Nat → Int) (i : Nat), i < BLOCK_SIZE →
        loadData RAM (readBlockNumber a.toNat) (readLineIndex a.toNat) old i =
          RAM (readBlockNumber a.toNat * 128 + readLineIndex a.toNat * BLOCK_SIZE + i)) := by
  have hs : CACHE_NUM_SETS = 4 := num_sets_eq
  have hb : BLOCK_SIZE = 8 := rfl
  have ha : a.toNat < RAM_SIZE := by omega
  refine ⟨ha, ?_, ?_, ?_, ?_, ?_, ?_, ?_, ?_⟩
  · unfold readSetIndex
    rw [hs]
    omega
  · unfold readOffset
    rw [hb]
    omega
  · unfold writeSetIndex
    rw [hs]
    omega
  · unfold writeOffset
    rw [hb]
    omega
  · intro c setIndex tag w h
    exact (findWay_some h).1
  · intro c setIndex
    exact selectReplaceIndex_lt c setIndex
  · intro i hi
    exact ramAddress_lt a.toNat ha i hi
  · intro RAM old i hi
    rw [loadData_apply, if_pos hi, if_pos (ramAddress_lt a.toNat ha i hi)]

theorem indices_in_bounds_witness :
    ((0 : Int) ≤ 511 ∧ (511 : Int) < (RAM_SIZE : Int)) ∧
      ((511 : Int).toNat < RAM_SIZE ∧
        readSetIndex (511 : Int).toNat < CACHE_NUM_SETS ∧
        readOffset (511 : Int).toNat < BLOCK_SIZE ∧
        writeSetIndex (511 : Int).toNat < CACHE_NUM_SETS ∧
        writeOffset (511 : Int).toNat < BLOCK_SIZE ∧
        (∀ (c : Nat → Nat → CacheLine) (setIndex : Nat) (tag : Int) (w : Nat),
          findWay c setIndex tag = some w → w < CACHE_WAYS) ∧
        (∀ (c : Nat → Nat → CacheLine) (setIndex : Nat),
          selectReplaceIndex c setIndex < CACHE_WAYS) ∧
        (∀ i : Nat, i < BLOCK_SIZE →
          readBlockNumber (511 : Int).toNat * 128 + readLineIndex (511 : Int).toNat * BLOCK_SIZE
            + i < RAM_SIZE) ∧
        (∀ (RAM old : Nat → Int) (i : Nat), i < BLOCK_SIZE →
          loadData RAM (readBlockNumber (511 : Int).toNat) (readLineIndex (511 : Int).toNat)
              old i =
            RAM (readBlockNumber (511 : Int).toNat * 128
              + readLineIndex (511 : Int).toNat * BLOCK_SIZE + i))) :=
  ⟨by decide, indices_in_bounds 511 (by decide) (by decide)⟩

/-! ## Victim selection, hits and block loads -/

theorem findWay_some_min {c : Nat → Nat → CacheLine} {setIndex : Nat} {tag : Int} {w : Nat}
    (h : findWay c setIndex tag = some w) (w' : Nat) (hw' : w' < w) :
    ¬ ((c setIndex w').valid = true ∧ (c setIndex w').tag = tag) := by
  unfold findWay at h
  rw [List.find?_range_eq_some] at h
  have := h.2.2 w' hw'
  simpa only [Bool.not_eq_true', Bool.and_eq_false_iff, Bool.and_eq_true, decide_eq_true_eq,
    decide_eq_false_iff_not, not_and, Bool.not_eq_true, imp_iff_not_or, Bool.not_eq_false,
    not_not] using this

theorem findEmpty_some {c : Nat → Nat → CacheLine} {setIndex w : Nat}
    (h : findEmpty c setIndex = some w) :
    w < CACHE_WAYS ∧ (c setIndex w).valid = false ∧
      ∀ w', w' < w → (c setIndex w').valid = true := by
  unfold findEmpty at h
  rw [List.find?_range_eq_some] at h
  refine ⟨List.mem_range.1 h.2.1, by simpa using h.1, ?_⟩
  intro w' hw'
  simpa using h.2.2 w' hw'

theorem findEmpty_none {c : Nat → Nat → CacheLine} {setIndex : Nat}
    (h : findEmpty c setIndex = none) (w : Nat) (hw : w < CACHE_WAYS) :
    (c setIndex w).valid = true := by
  unfold findEmpty at h
  rw [List.find?_range_eq_none] at h
  simpa using h w hw

theorem oldestWay_min (c : Nat → Nat → CacheLine) (setIndex : Nat) :
    (∀ w, w < CACHE_WAYS →
      (c setIndex (oldestWay c setIndex)).fifo_time ≤ (c setIndex w).fifo_time) ∧
    (∀ w, w < oldestWay c setIndex →
      (c setIndex (oldestWay c setIndex)).fifo_time < (c setIndex w).fifo_time) := by
  have hl : List.range' 1 (CACHE_WAYS - 1) = [1, 2, 3] := by decide
  have h4 : CACHE_WAYS = 4 := rfl
  unfold oldestWay
  rw [hl, h4]
  simp only [List.foldl]
  split_ifs <;> refine ⟨fun w hw => ?_, fun w hw => ?_⟩ <;> interval_cases w <;>
    simp_all <;> omega

/-- C12: victim selection. For every content of a set, the way chosen on a read miss is
the lowest-indexed invalid way if the set has an invalid way, and otherwise the
lowest-indexed way among those whose `fifo_time` is minimal over all `CACHE_WAYS` ways. -/
theorem victim_selection (c : Nat → Nat → CacheLine) (setIndex : Nat) :
    ((∃ w, w < CACHE_WAYS ∧ (c setIndex w).valid = false) →
      selectReplaceIndex c setIndex < CACHE_WAYS ∧
        (c setIndex (selectReplaceIndex c setIndex)).valid = false ∧
        ∀ w, w < selectReplaceIndex c setIndex → (c setIndex w).valid = true) ∧
    ((∀ w, w < CACHE_WAYS → (c setIndex w).valid = true) →
      selectReplaceIndex c setIndex < CACHE_WAYS ∧
        (∀ w, w < CACHE_WAYS →
          (c setIndex (selectReplaceIndex c setIndex)).fifo_time ≤ (c setIndex w).fifo_time) ∧
        (∀ w, w < selectReplaceIndex c setIndex →
          (c setIndex (selectReplaceIndex c setIndex)).fifo_time
            < (c setIndex w).fifo_time)) := by
  constructor
  · rintro ⟨w, hw, hv⟩
    cases he : findEmpty c setIndex with
    | none =>
      have := findEmpty_none he w hw
      rw [hv] at this
      exact Bool.noConfusion this
    | some r =>
      have hsel : selectReplaceIndex c setIndex = r := by
        unfold selectReplaceIndex
        rw [he]
      rw [hsel]
      exact findEmpty_some he
  · intro hall
    cases he : findEmpty c setIndex with
    | some r =>
      obtain ⟨hr, hv, _⟩ := findEmpty_some he
      rw [hall r hr] at hv
      exact Bool.noConfusion hv
    | none =>
      have hsel : selectReplaceIndex c setIndex = oldestWay c setIndex := by
        unfold selectReplaceIndex
        rw [he]
      rw [hsel]
      exact ⟨oldestWay_lt c setIndex, oldestWay_min c setIndex⟩

/-- C14, as corrected: a read hit only counts. In every state, for every in-range address
`a`, if the probe of `readFromAddress(a)` succeeds, that is, some way of the set it
probes is valid with `a`'s tag, then the call returns `data[offset]` of the
lowest-indexed such way and the new state is the old one with `hitCount` raised by one
in `unsigned long` arithmetic (by exactly one unless `hitCount` is `ULONG_MAX`): RAM,
`missCount`, `globalTime` and every cache line, its `fifo_time` included, are
unchanged. -/
theorem read_hit_only_counts (s : State) (a : Int) (h0 : 0 ≤ a) (h1 : a < (RAM_SIZE : Int))
    (hres : ∃ w, w < CACHE_WAYS ∧ (s.cache (readSetIndex a.toNat) w).valid = true ∧
      (s.cache (readSetIndex a.toNat) w).tag = (readTag a.toNat : Int)) :
    ∃ w, w < CACHE_WAYS ∧ (s.cache (readSetIndex a.toNat) w).valid = true ∧
      (s.cache (readSetIndex a.toNat) w).tag = (readTag a.toNat : Int) ∧
      (∀ w', w' < w → ¬ ((s.cache (readSetIndex a.toNat) w').valid = true ∧
        (s.cache (readSetIndex a.toNat) w').tag = (readTag a.toNat : Int))) ∧
      (readFromAddress s a).1 = (s.cache (readSetIndex a.toNat) w).data (readOffset a.toNat) ∧
      (readFromAddress s a).2 = { s with hitCount := (s.hitCount + 1) % (ULONG_MAX + 1) } ∧
      (readFromAddress s a).2.cache = s.cache ∧ (readFromAddress s a).2.RAM = s.RAM ∧
      (readFromAddress s a).2.missCount = s.missCount ∧
      (readFromAddress s a).2.globalTime = s.globalTime ∧
      (readFromAddress s a).2.hitCount = (s.hitCount + 1) % (ULONG_MAX + 1) ∧
      (s.hitCount < ULONG_MAX → (readFromAddress s a).2.hitCount = s.hitCount + 1) := by
  obtain ⟨w0, hw0, hv0, ht0⟩ := hres
  cases hw : findWay s.cache (readSetIndex a.toNat) (readTag a.toNat : Int) with
  | none => exact absurd ⟨hv0, ht0⟩ (findWay_none hw w0 hw0)
  | some w =>
    obtain ⟨hlt, hv, ht⟩ := findWay_some hw
    rw [readFromAddress_hit s a h0 h1 w hw]
    refine ⟨w, hlt, hv, ht, findWay_some_min hw, rfl, rfl, rfl, rfl, rfl, rfl, rfl, ?_⟩
    intro hlt'
    exact Nat.mod_eq_of_lt (by omega)

theorem read_hit_only_counts_witness :
    ((0 : Int) ≤ 8 ∧ (8 : Int) < (RAM_SIZE : Int)) ∧
      ∃ w, w < CACHE_WAYS ∧ (fourReads.cache (readSetIndex (8 : Int).toNat) w).valid = true ∧
        (fourReads.cache (readSetIndex (8 : Int).toNat) w).tag
          = (readTag (8 : Int).toNat : Int) ∧
        (∀ w', w' < w → ¬ ((fourReads.cache (readSetIndex (8 : Int).toNat) w').valid = true ∧
          (fourReads.cache (readSetIndex (8 : Int).toNat) w').tag
            = (readTag (8 : Int).toNat : Int))) ∧
        (readFromAddress fourReads 8).1
          = (fourReads.cache (readSetIndex (8 : Int).toNat) w).data
              (readOffset (8 : Int).toNat) ∧
        (readFromAddress fourReads 8).2
          = { fourReads with hitCount := (fourReads.hitCount + 1) % (ULONG_MAX + 1) } ∧
        (readFromAddress fourReads 8).2.cache = fourReads.cache ∧
        (readFromAddress fourReads 8).2.RAM = fourReads.RAM ∧
        (readFromAddress fourReads 8).2.missCount = fourReads.missCount ∧
        (readFromAddress fourReads 8).2.globalTime = fourReads.globalTime ∧
        (readFromAddress fourReads 8).2.hitCount
          = (fourReads.hitCount + 1) % (ULONG_MAX + 1) ∧
        (fourReads.hitCount < ULONG_MAX →
          (readFromAddress fourReads 8).2.hitCount = fourReads.hitCount + 1) :=
  ⟨by decide,
    read_hit_only_counts fourReads 8 (by decide) (by decide) ⟨0, by decide, by decide, by decide⟩⟩

/-- C14, as stated, fails in two places. Where `hitCount` is `ULONG_MAX` a hit wraps it
to `0` instead of raising it by one. And in the planted state, where way `0` of set
`(8 / BLOCK_SIZE) % CACHE_NUM_SETS = 1` is valid with the tag of address `8`,
`readFromAddress(8)` probes set `0`, is counted as a miss, loads a line and returns
`RAM[8] = 8` instead of the planted word `7`. -/
theorem read_hit_counterexample :
    ((fourReads.cache (readSetIndex 0) 0).valid = true ∧
      (fourReads.cache (readSetIndex 0) 0).tag = (readTag 0 : Int) ∧
      (readFromAddress { fourReads with hitCount := ULONG_MAX } 0).2.hitCount = 0) ∧
    ((plantedState.cache (writeSetIndex 8) 0).valid = true ∧
      (plantedState.cache (writeSetIndex 8) 0).tag = (writeTag 8 : Int) ∧
      (plantedState.cache (writeSetIndex 8) 0).data (writeOffset 8) = 7 ∧
      (readFromAddress plantedState 8).1 = 8 ∧
      (readFromAddress plantedState 8).2.hitCount = plantedState.hitCount ∧
      (readFromAddress plantedState 8).2.missCount = plantedState.missCount + 1 ∧
      ((readFromAddress plantedState 8).2.cache 0 0).valid = true ∧
      (plantedState.cache 0 0).valid = false) ∧
    ¬ (∀ (s : State) (a : Int), 0 ≤ a → a < (RAM_SIZE : Int) →
        (∃ w, w < CACHE_WAYS ∧ (s.cache (readSetIndex a.toNat) w).valid = true ∧
          (s.cache (readSetIndex a.toNat) w).tag = (readTag a.toNat : Int)) →
        (readFromAddress s a).2.hitCount = s.hitCount + 1) := by
  refine ⟨by decide, by decide, ?_⟩
  intro h
  exact absurd (h { fourReads with hitCount := ULONG_MAX } 0 (by decide) (by decide)
    ⟨0, by decide, by decide, by decide⟩) (by decide)

/-- C15, as corrected: block load on a read miss. In every state, for every in-range
address `a` for which the probe of `readFromAddress(a)` misses, the call changes exactly
one cache line: every line other than the selected victim of the set it probed is as it
was, and the victim line differs from before; afterwards the victim line is valid,
has tag `(a / BLOCK_SIZE) / CACHE_NUM_SETS`, has `fifo_time` equal to the pre-call
`globalTime`, and has `data[i] = RAM[(a / BLOCK_SIZE) * BLOCK_SIZE + i]` for every
`i < BLOCK_SIZE`; `globalTime` and `missCount` each grow by one in `unsigned long`
arithmetic (by exactly one unless the counter is `ULONG_MAX`), `hitCount` and RAM are
unchanged, and the returned value is `RAM[a]`. -/
theorem read_miss_loads_block (s : State) (a : Int) (h0 : 0 ≤ a) (h1 : a < (RAM_SIZE : Int))
    (hmiss : findWay s.cache (readSetIndex a.toNat) (readTag a.toNat : Int) = none) :
    readSetIndex a.toNat < CACHE_NUM_SETS ∧
      selectReplaceIndex s.cache (readSetIndex a.toNat) < CACHE_WAYS ∧
      (∀ set way, ¬ (set = readSetIndex a.toNat ∧
          way = selectReplaceIndex s.cache (readSetIndex a.toNat)) →
        (readFromAddress s a).2.cache set way = s.cache set way) ∧
      (readFromAddress s a).2.cache (readSetIndex a.toNat)
          (selectReplaceIndex s.cache (readSetIndex a.toNat))
        ≠ s.cache (readSetIndex a.toNat) (selectReplaceIndex s.cache (readSetIndex a.toNat)) ∧
      ((readFromAddress s a).2.cache (readSetIndex a.toNat)
        (selectReplaceIndex s.cache (readSetIndex a.toNat))).valid = true ∧
      ((readFromAddress s a).2.cache (readSetIndex a.toNat)
        (selectReplaceIndex s.cache (readSetIndex a.toNat))).tag
          = ((a.toNat / BLOCK_SIZE / CACHE_NUM_SETS : Nat) : Int) ∧
      ((readFromAddress s a).2.cache (readSetIndex a.toNat)
        (selectReplaceIndex s.cache (readSetIndex a.toNat))).fifo_time = s.globalTime ∧
      (∀ i, i < BLOCK_SIZE →
        ((readFromAddress s a).2.cache (readSetIndex a.toNat)
          (selectReplaceIndex s.cache (readSetIndex a.toNat))).data i
            = s.RAM (a.toNat / BLOCK_SIZE * BLOCK_SIZE + i)) ∧
      (readFromAddress s a).2.globalTime = (s.globalTime + 1) % (ULONG_MAX + 1) ∧
      (readFromAddress s a).2.missCount = (s.missCount + 1) % (ULONG_MAX + 1) ∧
      (s.globalTime < ULONG_MAX → (readFromAddress s a).2.globalTime = s.globalTime + 1) ∧
      (s.missCount < ULONG_MAX → (readFromAddress s a).2.missCount = s.missCount + 1) ∧
      (readFromAddress s a).2.hitCount = s.hitCount ∧
      (readFromAddress s a).2.RAM = s.RAM ∧
      (readFromAddress s a).1 = s.RAM a.toNat := by
  have hb : BLOCK_SIZE = 8 := rfl
  have ha : a.toNat < RAM_SIZE := by omega
  have hload : ∀ (old : Nat → Int) (i : Nat), i < BLOCK_SIZE →
      loadData s.RAM (readBlockNumber a.toNat) (readLineIndex a.toNat) old i
        = s.RAM (a.toNat / BLOCK_SIZE * BLOCK_SIZE + i) := by
    intro old i hi
    rw [loadData_apply, if_pos hi, if_pos (ramAddress_lt a.toNat ha i hi), ramAddress_eq]
  rw [readFromAddress_miss s a h0 h1 hmiss]
  refine ⟨(indices_set_lt a.toNat), selectReplaceIndex_lt _ _, ?_, ?_, ?_, ?_, ?_, ?_,
    rfl, rfl, fun hlt => Nat.mod_eq_of_lt (by omega), fun hlt => Nat.mod_eq_of_lt (by omega),
    rfl, rfl, ?_⟩
  · intro set way hne
    simp only [setLine, hne, if_false]
  · intro heq
    have hv : (s.cache (readSetIndex a.toNat)
        (selectReplaceIndex s.cache (readSetIndex a.toNat))).valid = true := by
      rw [← heq]
      simp only [setLine, and_self, if_true]
    have ht : (s.cache (readSetIndex a.toNat)
        (selectReplaceIndex s.cache (readSetIndex a.toNat))).tag = (readTag a.toNat : Int) := by
      rw [← heq]
      simp only [setLine, and_self, if_true]
    exact findWay_none hmiss _ (selectReplaceIndex_lt _ _) ⟨hv, ht⟩
  · simp only [setLine, and_self, if_true]
  · simp only [setLine, and_self, if_true]
    have e1 := readTag_eq a.toNat
    have e2 := writeTag_eq a.toNat
    unfold writeTag writeBlockNumber at e2
    rw [e1, e2]
  · simp only [setLine, and_self, if_true]
  · intro i hi
    simp only [setLine, and_self, if_true]
    exact hload _ i hi
  · dsimp only
    have hoff : readOffset a.toNat < BLOCK_SIZE := by
      unfold readOffset
      rw [hb]
      omega
    rw [hload _ _ hoff]
    congr 1
    unfold readOffset
    rw [hb]
    omega

theorem read_miss_loads_block_witness :
    ((0 : Int) ≤ 40 ∧ (40 : Int) < (RAM_SIZE : Int) ∧
      findWay initState.cache (readSetIndex (40 : Int).toNat)
        (readTag (40 : Int).toNat : Int) = none) ∧
      (readSetIndex (40 : Int).toNat < CACHE_NUM_SETS ∧
        selectReplaceIndex initState.cache (readSetIndex (40 : Int).toNat) < CACHE_WAYS ∧
        (∀ set way, ¬ (set = readSetIndex (40 : Int).toNat ∧
            way = selectReplaceIndex initState.cache (readSetIndex (40 : Int).toNat)) →
          (readFromAddress initState 40).2.cache set way = initState.cache set way) ∧
        (readFromAddress initState 40).2.cache (readSetIndex (40 : Int).toNat)
            (selectReplaceIndex initState.cache (readSetIndex (40 : Int).toNat))
          ≠ initState.cache (readSetIndex (40 : Int).toNat)
              (selectReplaceIndex initState.cache (readSetIndex (40 : Int).toNat)) ∧
        ((readFromAddress initState 40).2.cache (readSetIndex (40 : Int).toNat)
          (selectReplaceIndex initState.cache (readSetIndex (40 : Int).toNat))).valid = true ∧
        ((readFromAddress initState 40).2.cache (readSetIndex (40 : Int).toNat)
          (selectReplaceIndex initState.cache (readSetIndex (40 : Int).toNat))).tag
            = (((40 : Int).toNat / BLOCK_SIZE / CACHE_NUM_SETS : Nat) : Int) ∧
        ((readFromAddress initState 40).2.cache (readSetIndex (40 : Int).toNat)
          (selectReplaceIndex initState.cache (readSetIndex (40 : Int).toNat))).fifo_time
            = initState.globalTime ∧
        (∀ i, i < BLOCK_SIZE →
          ((readFromAddress initState 40).2.cache (readSetIndex (40 : Int).toNat)
            (selectReplaceIndex initState.cache (readSetIndex (40 : Int).toNat))).data i
              = initState.RAM ((40 : Int).toNat / BLOCK_SIZE * BLOCK_SIZE + i)) ∧
        (readFromAddress initState 40).2.globalTime
          = (initState.globalTime + 1) % (ULONG_MAX + 1) ∧
        (readFromAddress initState 40).2.missCount
          = (initState.missCount + 1) % (ULONG_MAX + 1) ∧
        (initState.globalTime < ULONG_MAX →
          (readFromAddress initState 40).2.globalTime = initState.globalTime + 1) ∧
        (initState.missCount < ULONG_MAX →
          (readFromAddress initState 40).2.missCount = initState.missCount + 1) ∧
        (readFromAddress initState 40).2.hitCount = initState.hitCount ∧
        (readFromAddress initState 40).2.RAM = initState.RAM ∧
        (readFromAddress initState 40).1 = initState.RAM (40 : Int).toNat) :=
  ⟨by decide, read_miss_loads_block initState 40 (by decide) (by decide) (by decide)⟩

/-- C15, as stated, fails in two places. From the initial state `readFromAddress(8)`
misses and the one line it changes is way `0` of set `0`, while the set of address `8`
under the decomposition that gives the claim's tag and block is
`(8 / BLOCK_SIZE) % CACHE_NUM_SETS = 1`, whose four lines stay invalid. And where
`missCount` and `globalTime` are `ULONG_MAX` a miss wraps both to `0` instead of raising
them by one. -/
theorem read_miss_counterexample :
    (findWay initState.cache (readSetIndex 8) (readTag 8 : Int) = none ∧
      findWay initState.cache (writeSetIndex 8) (writeTag 8 : Int) = none ∧
      writeSetIndex 8 = 1 ∧ readSetIndex 8 = 0 ∧
      ((readFromAddress initState 8).2.cache 0 0).valid = true ∧
      (∀ way, way < CACHE_WAYS →
        ((readFromAddress initState 8).2.cache (writeSetIndex 8) way).valid = false)) ∧
    ((readFromAddress
        { initState with missCount := ULONG_MAX, globalTime := ULONG_MAX } 0).2.missCount = 0 ∧
      (readFromAddress
        { initState with missCount := ULONG_MAX, globalTime := ULONG_MAX } 0).2.globalTime
          = 0) ∧
    ¬ (∀ (s : State) (a : Int), 0 ≤ a → a < (RAM_SIZE : Int) →
        findWay s.cache (readSetIndex a.toNat) (readTag a.toNat : Int) = none →
        (readFromAddress s a).2.missCount = s.missCount + 1 ∧
          (readFromAddress s a).2.globalTime = s.globalTime + 1) := by
  refine ⟨by decide, by decide, ?_⟩
  intro h
  have := (h { initState with missCount := ULONG_MAX, globalTime := ULONG_MAX } 0
    (by decide) (by decide) (by decide)).1
  exact absurd this (by decide)

/-- C13: a write miss is not always counted as a miss, nor does it make the written
block resident where the write path looks for it. From the initial state
`writeToAddress(8, 99)` misses in its own probe and the same probe still finds nothing
after the call; and in the reachable state after `readFromAddress(0)` the same write
misses in its own probe, leaves `missCount` unchanged and raises `hitCount` by one. -/
theorem write_miss_not_allocated :
    (findWay initState.cache (writeSetIndex 8) (writeTag 8 : Int) = none ∧
      (writeToAddress initState 8 99).missCount = initState.missCount + 1 ∧
      findWay (writeToAddress initState 8 99).cache (writeSetIndex 8) (writeTag 8 : Int)
        = none) ∧
    (Reachable (readFromAddress initState 0).2 ∧
      findWay (readFromAddress initState 0).2.cache (writeSetIndex 8) (writeTag 8 : Int)
        = none ∧
      (writeToAddress (readFromAddress initState 0).2 8 99).missCount
        = (readFromAddress initState 0).2.missCount ∧
      (writeToAddress (readFromAddress initState 0).2 8 99).hitCount
        = (readFromAddress initState 0).2.hitCount + 1 ∧
      findWay (writeToAddress (readFromAddress initState 0).2 8 99).cache (writeSetIndex 8)
        (writeTag 8 : Int) = none) := by
  refine ⟨by decide, ⟨[Op.read 0], rfl⟩, by decide, by decide, by decide, by decide⟩

/-! ## The load loop of the menu -/

theorem loadLoop_index (vals : List Int) :
    ∀ (index : Nat) (RAM : Nat → Int) (stores : List Nat), index ≤ RAM_SIZE →
      (loadLoop vals index RAM stores).index = index + min vals.length (RAM_SIZE - index) := by
  induction vals with
  | nil =>
    intro index RAM stores _
    simp [loadLoop]
  | cons v rest ih =>
    intro index RAM stores hle
    unfold loadLoop
    by_cases h : index < RAM_SIZE
    · simp only [h, if_true]
      rw [ih (index + 1) _ _ (by omega)]
      simp only [List.length_cons]
      omega
    · simp only [h, if_false]
      omega

theorem loadLoop_store_at_end (vals : List Int) :
    ∀ (index : Nat) (RAM : Nat → Int) (stores : List Nat), index ≤ RAM_SIZE →
      RAM_SIZE - index < vals.length →
      RAM_SIZE ∈ (loadLoop vals index RAM stores).stores := by
  induction vals with
  | nil =>
    intro index RAM stores _ hlen
    simp at hlen
  | cons v rest ih =>
    intro index RAM stores hle hlen
    simp only [List.length_cons] at hlen
    unfold loadLoop
    by_cases h : index < RAM_SIZE
    · simp only [h, if_true]
      exact ih (index + 1) _ _ (by omega) (by omega)
    · simp only [h, if_false]
      have he : index = RAM_SIZE := by omega
      simp [he]

theorem loadLoop_RAM (vals : List Int) :
    ∀ (index : Nat) (RAM : Nat → Int) (stores : List Nat) (i : Nat), i < RAM_SIZE →
      (loadLoop vals index RAM stores).RAM i =
        if index ≤ i ∧ i - index < vals.length then vals.getD (i - index) 0 else RAM i := by
  induction vals with
  | nil =>
    intro index RAM stores i _
    simp [loadLoop]
  | cons v rest ih =>
    intro index RAM stores i hi
    unfold loadLoop
    by_cases h : index < RAM_SIZE
    · simp only [h, if_true]
      rw [ih (index + 1) _ _ i hi]
      simp only [List.length_cons]
      by_cases hlt : index + 1 ≤ i
      · have e : i - index = (i - (index + 1)) + 1 := by omega
        rw [e, List.getD_cons_succ]
        by_cases hr : i - (index + 1) < rest.length
        · rw [if_pos ⟨hlt, hr⟩, if_pos ⟨by omega, by omega⟩]
        · have hne : i ≠ index := by omega
          have c1 : ¬ (index + 1 ≤ i ∧ i - (index + 1) < rest.length) := fun hh => hr hh.2
          have c2 : ¬ (index ≤ i ∧ i - (index + 1) + 1 < rest.length + 1) :=
            fun hh => hr (by omega)
          rw [if_neg c1, if_neg c2]
          simp only [hne, if_false]
      · rw [if_neg (fun hh => hlt hh.1)]
        by_cases hie : i = index
        · subst hie
          simp
        · simp only [hie, if_false]
          rw [if_neg (fun hh => hie (by omega))]
    · simp only [h, if_false]
      have hne : i ≠ index := by omega
      simp only [hne, if_false]
      rw [if_neg (fun hh => by omega)]

/-- C17: the load loop stores past the end of RAM. On a file of 513 integers the loop
reports 512 loaded words but performs a store at index `512 = RAM_SIZE`; the same
happens for every file with more than `RAM_SIZE` integers. The rest of the bulk-load
contract holds for every file: `min(len, RAM_SIZE)` is reported, `RAM[i] = values[i]`
below that count, and the other words of RAM are untouched. -/
theorem bulk_load_stores_past_end :
    ((loadFromFile initState.RAM (List.replicate 513 7)).index = 512 ∧
      512 ∈ (loadFromFile initState.RAM (List.replicate 513 7)).stores) ∧
    (∀ (RAM : Nat → Int) (values : List Int), RAM_SIZE < values.length →
      RAM_SIZE ∈ (loadFromFile RAM values).stores) ∧
    (∀ (RAM : Nat → Int) (values : List Int),
      (loadFromFile RAM values).index = min values.length RAM_SIZE ∧
      (∀ i, i < min values.length RAM_SIZE →
        (loadFromFile RAM values).RAM i = values.getD i 0) ∧
      (∀ i, min values.length RAM_SIZE ≤ i → i < RAM_SIZE →
        (loadFromFile RAM values).RAM i = RAM i)) := by
  have hpast : ∀ (RAM : Nat → Int) (values : List Int), RAM_SIZE < values.length →
      RAM_SIZE ∈ (loadFromFile RAM values).stores := by
    intro RAM values hlen
    exact loadLoop_store_at_end values 0 RAM [] (Nat.zero_le _) (by omega)
  have hidx : ∀ (RAM : Nat → Int) (values : List Int),
      (loadFromFile RAM values).index = min values.length RAM_SIZE := by
    intro RAM values
    unfold loadFromFile
    rw [loadLoop_index values 0 RAM [] (Nat.zero_le _)]
    omega
  refine ⟨⟨?_, ?_⟩, hpast, ?_⟩
  · rw [hidx, List.length_replicate]
    decide
  · exact hpast _ _ (by rw [List.length_replicate]; decide)
  · intro RAM values
    refine ⟨hidx RAM values, ?_, ?_⟩
    · intro i hi
      unfold loadFromFile
      rw [loadLoop_RAM values 0 RAM [] i (by omega)]
      rw [if_pos ⟨Nat.zero_le _, by omega⟩]
      rfl
    · intro i hge hi
      unfold loadFromFile
      rw [loadLoop_RAM values 0 RAM [] i hi]
      rw [if_neg (fun hh => by omega)]

/-! ## Counting valid lines -/

theorem countP_range_flip (n : Nat) (p q : Nat → Bool) (w0 : Nat) (hw : w0 < n)
    (hp : p w0 = false) (hq : q w0 = true) (hrest : ∀ w, w ≠ w0 → q w = p w) :
    (List.range n).countP q = (List.range n).countP p + 1 := by
  induction n with
  | zero => omega
  | succ n ih =>
    rw [List.range_succ, List.countP_append, List.countP_append]
    by_cases h : w0 = n
    · subst h
      have hc : (List.range w0).countP q = (List.range w0).countP p := by
        apply List.countP_congr
        intro x hx
        have hx' : x ≠ w0 := by
          have := List.mem_range.1 hx
          omega
        rw [hrest x hx']
      rw [hc]
      simp [List.countP_cons, hp, hq]
    · rw [ih (by omega)]
      have hn : q n = p n := hrest n (Ne.symm h)
      simp only [List.countP_cons, List.countP_nil, hn]
      omega

theorem sum_range_bump (n : Nat) (f g : Nat → Nat) (s0 : Nat) (hs : s0 < n)
    (h0 : g s0 = f s0 + 1) (hrest : ∀ s, s ≠ s0 → g s = f s) :
    ((List.range n).map g).sum = ((List.range n).map f).sum + 1 := by
  induction n with
  | zero => omega
  | succ n ih =>
    rw [List.range_succ, List.map_append, List.map_append, List.sum_append, List.sum_append]
    by_cases h : s0 = n
    · subst h
      have hc : (List.range s0).map g = (List.range s0).map f := by
        apply List.map_congr_left
        intro x hx
        have hx' : x ≠ s0 := by
          have := List.mem_range.1 hx
          omega
        exact hrest x hx'
      rw [hc]
      simp only [List.map_cons, List.map_nil, List.sum_cons, List.sum_nil, h0]
      omega
    · rw [ih (by omega)]
      have hn : g n = f n := hrest n (Ne.symm h)
      simp only [List.map_cons, List.map_nil, List.sum_cons, List.sum_nil, hn]
      omega

theorem validCount_congr (c c' : Nat → Nat → CacheLine)
    (h : ∀ set way, (c' set way).valid = (c set way).valid) :
    validCount c' = validCount c := by
  unfold validCount
  simp only [h]

theorem validCount_setLine (c : Nat → Nat → CacheLine) (set0 w0 : Nat) (l : CacheLine)
    (hs : set0 < CACHE_NUM_SETS) (hw : w0 < CACHE_WAYS) (hold : (c set0 w0).valid = false)
    (hnew : l.valid = true) :
    validCount (setLine c set0 w0 l) = validCount c + 1 := by
  unfold validCount
  apply sum_range_bump CACHE_NUM_SETS _ _ set0 hs
  · apply countP_range_flip CACHE_WAYS _ _ w0 hw hold
    · simp only [setLine, and_self, if_true, hnew]
    · intro w hwne
      simp only [setLine, hwne, and_false, if_false]
  · intro s hsne
    simp only [setLine, hsne, false_and, if_false]

theorem validCount_le (c : Nat → Nat → CacheLine) :
    validCount c ≤ CACHE_NUM_SETS * CACHE_WAYS := by
  have hsets : List.range CACHE_NUM_SETS = [0, 1, 2, 3] := by decide
  have hlen : (List.range CACHE_WAYS).length = 4 := by decide
  have hb : ∀ set, (List.range CACHE_WAYS).countP (fun way => (c set way).valid) ≤ 4 := by
    intro set
    have := List.countP_le_length (fun way => (c set way).valid) (l := List.range CACHE_WAYS)
    omega
  have hprod : CACHE_NUM_SETS * CACHE_WAYS = 16 := by decide
  unfold validCount
  rw [hsets, hprod]
  simp only [List.map_cons, List.map_nil, List.sum_cons, List.sum_nil]
  have h0 := hb 0
  have h1 := hb 1
  have h2 := hb 2
  have h3 := hb 3
  omega

/-! ## The invariant of reachable states -/

theorem initState_invalid (set way : Nat) : (initState.cache set way).valid = false := by
  unfold initState initCache initRAM startState
  dsimp only
  split <;> rfl

theorem Inv_init : Inv initState where
  tagRange := fun set way h => by
    rw [initState_invalid] at h
    exact Bool.noConfusion h
  noDup := fun set w1 w2 h => by
    rw [initState_invalid] at h
    exact Bool.noConfusion h
  counters := ⟨rfl, by decide⟩
  stampLt := fun set way h => by
    rw [initState_invalid] at h
    exact Bool.noConfusion h
  stampInj := fun set1 way1 set2 way2 h => by
    rw [initState_invalid] at h
    exact Bool.noConfusion h

/-- The invariant only looks at the validity, tag and stamp of each line and at
`missCount` and `globalTime`. -/
theorem Inv_of_meta (s t : State) (h : Inv s) (hm : t.missCount = s.missCount)
    (hg : t.globalTime = s.globalTime)
    (hc : ∀ set way, (t.cache set way).valid = (s.cache set way).valid ∧
      (t.cache set way).tag = (s.cache set way).tag ∧
      (t.cache set way).fifo_time = (s.cache set way).fifo_time) : Inv t where
  tagRange := fun set way hv => by
    rw [(hc set way).1] at hv
    rw [(hc set way).2.1]
    exact h.tagRange set way hv
  noDup := fun set w1 w2 h1 h2 ht => by
    rw [(hc set w1).1] at h1
    rw [(hc set w2).1] at h2
    rw [(hc set w1).2.1, (hc set w2).2.1] at ht
    exact h.noDup set w1 w2 h1 h2 ht
  counters := by
    rw [hm, hg, validCount_congr s.cache t.cache (fun set way => (hc set way).1)]
    exact h.counters
  stampLt := fun set way hv => by
    rw [(hc set way).1] at hv
    rw [(hc set way).2.2, hg]
    exact h.stampLt set way hv
  stampInj := fun set1 way1 set2 way2 h1 h2 hf => by
    rw [(hc set1 way1).1] at h1
    rw [(hc set2 way2).1] at h2
    rw [(hc set1 way1).2.2, (hc set2 way2).2.2] at hf
    exact h.stampInj set1 way1 set2 way2 h1 h2 hf

theorem setWord_meta (c : Nat → Nat → CacheLine) (set0 w0 offset : Nat) (value : Int)
    (set way : Nat) :
    (setWord c set0 w0 offset value set way).valid = (c set way).valid ∧
      (setWord c set0 w0 offset value set way).tag = (c set way).tag ∧
      (setWord c set0 w0 offset value set way).fifo_time = (c set way).fifo_time := by
  unfold setWord setLine
  by_cases h : set = set0 ∧ way = w0
  · obtain ⟨h1, h2⟩ := h
    subst h1
    subst h2
    simp only [and_self, if_true]
  · simp only [h, if_false, and_self]

theorem readTag_range (a : Nat) (ha : a < RAM_SIZE) :
    4 * readSetIndex a ≤ readTag a ∧ readTag a ≤ 4 * readSetIndex a + 3 := by
  have hr : RAM_SIZE = 512 := rfl
  rw [readSetIndex_eq a ha, readTag_eq]
  omega

/-- In a state satisfying the invariant a missing read probe leaves an invalid way. -/
theorem miss_has_empty (s : State) (h : Inv s) (a : Int) (h0 : 0 ≤ a)
    (h1 : a < (RAM_SIZE : Int))
    (hmiss : findWay s.cache (readSetIndex a.toNat) (readTag a.toNat : Int) = none) :
    ∃ w, findEmpty s.cache (readSetIndex a.toNat) = some w := by
  have ha : a.toNat < RAM_SIZE := by omega
  cases he : findEmpty s.cache (readSetIndex a.toNat) with
  | some w => exact ⟨w, rfl⟩
  | none =>
    exfalso
    have h4 : CACHE_WAYS = 4 := rfl
    have hv : ∀ w, w < 4 → (s.cache (readSetIndex a.toNat) w).valid = true :=
      fun w hw => findEmpty_none he w (by rw [h4]; exact hw)
    have hT := readTag_range a.toNat ha
    have r0 := (h.tagRange _ 0 (hv 0 (by omega))).2.2
    have r1 := (h.tagRange _ 1 (hv 1 (by omega))).2.2
    have r2 := (h.tagRange _ 2 (hv 2 (by omega))).2.2
    have r3 := (h.tagRange _ 3 (hv 3 (by omega))).2.2
    have n0 : (s.cache (readSetIndex a.toNat) 0).tag ≠ (readTag a.toNat : Int) :=
      fun e => findWay_none hmiss 0 (by decide) ⟨hv 0 (by omega), e⟩
    have n1 : (s.cache (readSetIndex a.toNat) 1).tag ≠ (readTag a.toNat : Int) :=
      fun e => findWay_none hmiss 1 (by decide) ⟨hv 1 (by omega), e⟩
    have n2 : (s.cache (readSetIndex a.toNat) 2).tag ≠ (readTag a.toNat : Int) :=
      fun e => findWay_none hmiss 2 (by decide) ⟨hv 2 (by omega), e⟩
    have n3 : (s.cache (readSetIndex a.toNat) 3).tag ≠ (readTag a.toNat : Int) :=
      fun e => findWay_none hmiss 3 (by decide) ⟨hv 3 (by omega), e⟩
    have d01 : (s.cache (readSetIndex a.toNat) 0).tag ≠ (s.cache (readSetIndex a.toNat) 1).tag :=
      fun e => absurd (h.noDup _ 0 1 (hv 0 (by omega)) (hv 1 (by omega)) e) (by decide)
    have d02 : (s.cache (readSetIndex a.toNat) 0).tag ≠ (s.cache (readSetIndex a.toNat) 2).tag :=
      fun e => absurd (h.noDup _ 0 2 (hv 0 (by omega)) (hv 2 (by omega)) e) (by decide)
    have d03 : (s.cache (readSetIndex a.toNat) 0).tag ≠ (s.cache (readSetIndex a.toNat) 3).tag :=
      fun e => absurd (h.noDup _ 0 3 (hv 0 (by omega)) (hv 3 (by omega)) e) (by decide)
    have d12 : (s.cache (readSetIndex a.toNat) 1).tag ≠ (s.cache (readSetIndex a.toNat) 2).tag :=
      fun e => absurd (h.noDup _ 1 2 (hv 1 (by omega)) (hv 2 (by omega)) e) (by decide)
    have d13 : (s.cache (readSetIndex a.toNat) 1).tag ≠ (s.cache (readSetIndex a.toNat) 3).tag :=
      fun e => absurd (h.noDup _ 1 3 (hv 1 (by omega)) (hv 3 (by omega)) e) (by decide)
    have d23 : (s.cache (readSetIndex a.toNat) 2).tag ≠ (s.cache (readSetIndex a.toNat) 3).tag :=
      fun e => absurd (h.noDup _ 2 3 (hv 2 (by omega)) (hv 3 (by omega)) e) (by decide)
    omega

theorem miss_victim (s : State) (h : Inv s) (a : Int) (h0 : 0 ≤ a)
    (h1 : a < (RAM_SIZE : Int))
    (hmiss : findWay s.cache (readSetIndex a.toNat) (readTag a.toNat : Int) = none) :
    findEmpty s.cache (readSetIndex a.toNat)
        = some (selectReplaceIndex s.cache (readSetIndex a.toNat)) ∧
      (s.cache (readSetIndex a.toNat)
        (selectReplaceIndex s.cache (readSetIndex a.toNat))).valid = false := by
  obtain ⟨w, hw⟩ := miss_has_empty s h a h0 h1 hmiss
  have hsel : selectReplaceIndex s.cache (readSetIndex a.toNat) = w := by
    unfold selectReplaceIndex
    rw [hw]
  rw [hsel]
  exact ⟨hw, (findEmpty_some hw).2.1⟩

theorem Inv_read_miss (s : State) (h : Inv s) (a : Int) (h0 : 0 ≤ a)
    (h1 : a < (RAM_SIZE : Int))
    (hmiss : findWay s.cache (readSetIndex a.toNat) (readTag a.toNat : Int) = none) :
    Inv (readFromAddress s a).2 := by
  have ha : a.toNat < RAM_SIZE := by omega
  have hinv := (miss_victim s h a h0 h1 hmiss).2
  have hrlt := selectReplaceIndex_lt s.cache (readSetIndex a.toNat)
  have hslt := indices_set_lt a.toNat
  have hT := readTag_range a.toNat ha
  have hcnt := h.counters
  have hle := validCount_le s.cache
  have hprod : CACHE_NUM_SETS * CACHE_WAYS = 16 := by decide
  have hM : ULONG_MAX = 18446744073709551615 := rfl
  have hmm : (s.missCount + 1) % (ULONG_MAX + 1) = s.missCount + 1 :=
    Nat.mod_eq_of_lt (by omega)
  have hgg : (s.globalTime + 1) % (ULONG_MAX + 1) = s.globalTime + 1 :=
    Nat.mod_eq_of_lt (by omega)
  rw [readFromAddress_miss s a h0 h1 hmiss, hmm, hgg]
  dsimp only
  refine { tagRange := ?_, noDup := ?_, counters := ?_, stampLt := ?_, stampInj := ?_ }
  · intro set way hv
    by_cases hp : set = readSetIndex a.toNat ∧
        way = selectReplaceIndex s.cache (readSetIndex a.toNat)
    · simp only [setLine, hp, and_self, if_true]
      exact ⟨hslt, hrlt, by omega, by omega⟩
    · simp only [setLine, hp, if_false] at hv ⊢
      exact h.tagRange set way hv
  · intro set w1 w2 hv1 hv2 ht
    by_cases hs : set = readSetIndex a.toNat
    · subst hs
      by_cases e1 : w1 = selectReplaceIndex s.cache (readSetIndex a.toNat)
      · by_cases e2 : w2 = selectReplaceIndex s.cache (readSetIndex a.toNat)
        · rw [e1, e2]
        · exfalso
          simp only [setLine, e1, e2, and_self, and_false, if_true, if_false, true_and]
            at hv2 ht
          exact findWay_none hmiss w2 (h.tagRange _ w2 hv2).2.1 ⟨hv2, ht.symm⟩
      · by_cases e2 : w2 = selectReplaceIndex s.cache (readSetIndex a.toNat)
        · exfalso
          simp only [setLine, e1, e2, and_self, and_false, if_true, if_false, true_and]
            at hv1 ht
          exact findWay_none hmiss w1 (h.tagRange _ w1 hv1).2.1 ⟨hv1, ht⟩
        · simp only [setLine, e1, e2, and_false, if_false] at hv1 hv2 ht
          exact h.noDup _ w1 w2 hv1 hv2 ht
    · simp only [setLine, hs, false_and, if_false] at hv1 hv2 ht
      exact h.noDup set w1 w2 hv1 hv2 ht
  · dsimp only
    rw [validCount_setLine s.cache _ _ _ hslt hrlt hinv rfl]
    have hc := h.counters
    omega
  · intro set way hv
    by_cases hp : set = readSetIndex a.toNat ∧
        way = selectReplaceIndex s.cache (readSetIndex a.toNat)
    · simp only [setLine, hp, and_self, if_true]
      omega
    · simp only [setLine, hp, if_false] at hv ⊢
      have := h.stampLt set way hv
      omega
  · intro set1 way1 set2 way2 hv1 hv2 hf
    by_cases hp1 : set1 = readSetIndex a.toNat ∧
        way1 = selectReplaceIndex s.cache (readSetIndex a.toNat)
    · by_cases hp2 : set2 = readSetIndex a.toNat ∧
          way2 = selectReplaceIndex s.cache (readSetIndex a.toNat)
      · exact ⟨hp1.1.trans hp2.1.symm, hp1.2.trans hp2.2.symm⟩
      · exfalso
        simp only [setLine, hp1, hp2, and_self, if_true, if_false] at hv2 hf
        have := h.stampLt set2 way2 hv2
        omega
    · by_cases hp2 : set2 = readSetIndex a.toNat ∧
          way2 = selectReplaceIndex s.cache (readSetIndex a.toNat)
      · exfalso
        simp only [setLine, hp1, hp2, and_self, if_true, if_false] at hv1 hf
        have := h.stampLt set1 way1 hv1
        omega
      · simp only [setLine, hp1, hp2, if_false] at hv1 hv2 hf
        exact h.stampInj set1 way1 set2 way2 hv1 hv2 hf

theorem Inv_read (s : State) (h : Inv s) (a : Int) : Inv (readFromAddress s a).2 := by
  by_cases hr : 0 ≤ a ∧ a < (RAM_SIZE : Int)
  · cases hw : findWay s.cache (readSetIndex a.toNat) (readTag a.toNat : Int) with
    | some w =>
      rw [readFromAddress_hit s a hr.1 hr.2 w hw]
      exact Inv_of_meta s _ h rfl rfl (fun _ _ => ⟨rfl, rfl, rfl⟩)
    | none => exact Inv_read_miss s h a hr.1 hr.2 hw
  · have hg : a < 0 ∨ a ≥ (RAM_SIZE : Int) := by omega
    rw [readFromAddress_invalid s a hg]
    exact h

/-- A read leaves every valid line exactly as it was. -/
theorem read_keeps_line (s : State) (h : Inv s) (a : Int) (set way : Nat)
    (hv : (s.cache set way).valid = true) :
    (readFromAddress s a).2.cache set way = s.cache set way := by
  by_cases hr : 0 ≤ a ∧ a < (RAM_SIZE : Int)
  · cases hw : findWay s.cache (readSetIndex a.toNat) (readTag a.toNat : Int) with
    | some w => rw [readFromAddress_hit s a hr.1 hr.2 w hw]
    | none =>
      have hinv := (miss_victim s h a hr.1 hr.2 hw).2
      rw [readFromAddress_miss s a hr.1 hr.2 hw]
      have hp : ¬ (set = readSetIndex a.toNat ∧
          way = selectReplaceIndex s.cache (readSetIndex a.toNat)) := by
        rintro ⟨e1, e2⟩
        rw [e1, e2, hinv] at hv
        exact Bool.noConfusion hv
      simp only [setLine, hp, if_false]
  · have hg : a < 0 ∨ a ≥ (RAM_SIZE : Int) := by omega
    rw [readFromAddress_invalid s a hg]

/-- The cache after a write has the line metadata of the cache after a read of the same
address, and the counters of that read or of the state before. -/
theorem write_meta (s : State) (a v : Int) (h0 : 0 ≤ a) (h1 : a < (RAM_SIZE : Int)) :
    ((writeToAddress s a v).missCount = s.missCount ∧
        (writeToAddress s a v).globalTime = s.globalTime ∧
        ∀ set way,
          ((writeToAddress s a v).cache set way).valid = (s.cache set way).valid ∧
          ((writeToAddress s a v).cache set way).tag = (s.cache set way).tag ∧
          ((writeToAddress s a v).cache set way).fifo_time = (s.cache set way).fifo_time) ∨
      ((writeToAddress s a v).missCount
          = (readFromAddress { s with RAM := fun i => if i = a.toNat then v else s.RAM i }
              a).2.missCount ∧
        (writeToAddress s a v).globalTime
          = (readFromAddress { s with RAM := fun i => if i = a.toNat then v else s.RAM i }
              a).2.globalTime ∧
        ∀ set way,
          ((writeToAddress s a v).cache set way).valid
            = ((readFromAddress { s with RAM := fun i => if i = a.toNat then v else s.RAM i }
                a).2.cache set way).valid ∧
          ((writeToAddress s a v).cache set way).tag
            = ((readFromAddress { s with RAM := fun i => if i = a.toNat then v else s.RAM i }
                a).2.cache set way).tag ∧
          ((writeToAddress s a v).cache set way).fifo_time
            = ((readFromAddress { s with RAM := fun i => if i = a.toNat then v else s.RAM i }
                a).2.cache set way).fifo_time) := by
  have hg : ¬ (a < 0 ∨ a ≥ (RAM_SIZE : Int)) := by omega
  unfold writeToAddress
  rw [if_neg hg]
  dsimp only
  split
  · left
    exact ⟨rfl, rfl, fun set way => setWord_meta _ _ _ _ _ set way⟩
  · right
    split
    · exact ⟨rfl, rfl, fun set way => setWord_meta _ _ _ _ _ set way⟩
    · exact ⟨rfl, rfl, fun set way => ⟨rfl, rfl, rfl⟩⟩

theorem Inv_write (s : State) (h : Inv s) (a v : Int) : Inv (writeToAddress s a v) := by
  by_cases hr : 0 ≤ a ∧ a < (RAM_SIZE : Int)
  · rcases write_meta s a v hr.1 hr.2 with ⟨hm, hg, hc⟩ | ⟨hm, hg, hc⟩
    · exact Inv_of_meta s _ h hm hg hc
    · have h1 : Inv { s with RAM := fun i => if i = a.toNat then v else s.RAM i } :=
        Inv_of_meta s _ h rfl rfl (fun _ _ => ⟨rfl, rfl, rfl⟩)
      exact Inv_of_meta _ _ (Inv_read _ h1 a) hm hg hc
  · have hg : a < 0 ∨ a ≥ (RAM_SIZE : Int) := by omega
    rw [writeToAddress_invalid s a v hg]
    exact h

theorem Inv_step (s : State) (h : Inv s) (op : Op) : Inv (step s op) := by
  cases op with
  | read a => exact Inv_read s h a
  | write a v => exact Inv_write s h a v

theorem Inv_run (ops : List Op) (s : State) (h : Inv s) : Inv (run s ops) := by
  induction ops generalizing s with
  | nil => exact h
  | cons op ops ih =>
    have hrun : run s (op :: ops) = run (step s op) ops := rfl
    rw [hrun]
    exact ih (step s op) (Inv_step s h op)

theorem Inv_reachable (s : State) (h : Reachable s) : Inv s := by
  obtain ⟨ops, rfl⟩ := h
  exact Inv_run ops initState Inv_init

/-- A call leaves every valid line valid with the same tag and stamp. -/
theorem step_keeps_valid (s : State) (h : Inv s) (op : Op) (set way : Nat)
    (hv : (s.cache set way).valid = true) :
    ((step s op).cache set way).valid = true ∧
      ((step s op).cache set way).tag = (s.cache set way).tag ∧
      ((step s op).cache set way).fifo_time = (s.cache set way).fifo_time := by
  cases op with
  | read a =>
    simp only [step]
    rw [read_keeps_line s h a set way hv]
    exact ⟨hv, rfl, rfl⟩
  | write a v =>
    simp only [step]
    by_cases hr : 0 ≤ a ∧ a < (RAM_SIZE : Int)
    · rcases write_meta s a v hr.1 hr.2 with ⟨_, _, hc⟩ | ⟨_, _, hc⟩
      · rw [(hc set way).1, (hc set way).2.1, (hc set way).2.2]
        exact ⟨hv, rfl, rfl⟩
      · have h1 : Inv { s with RAM := fun i => if i = a.toNat then v else s.RAM i } :=
          Inv_of_meta s _ h rfl rfl (fun _ _ => ⟨rfl, rfl, rfl⟩)
        rw [(hc set way).1, (hc set way).2.1, (hc set way).2.2,
          read_keeps_line _ h1 a set way hv]
        exact ⟨hv, rfl, rfl⟩
    · have hg : a < 0 ∨ a ≥ (RAM_SIZE : Int) := by omega
      rw [writeToAddress_invalid s a v hg]
      exact ⟨hv, rfl, rfl⟩

/-! ## Claims about reachable states -/

/-- C11: no duplicate tags. In every state reachable from the initial state by
`readFromAddress` / `writeToAddress` calls, for every set and every tag at most one way
of the set is valid with that tag. -/
theorem no_duplicate_tags (s : State) (h : Reachable s) :
    ∀ (set : Nat) (tag : Int) (w1 w2 : Nat),
      (s.cache set w1).valid = true ∧ (s.cache set w1).tag = tag →
      (s.cache set w2).valid = true ∧ (s.cache set w2).tag = tag → w1 = w2 := by
  intro set tag w1 w2 h1 h2
  exact (Inv_reachable s h).noDup set w1 w2 h1.1 h2.1 (h1.2.trans h2.2.symm)

theorem no_duplicate_tags_witness :
    Reachable fourReads ∧
      ∀ (set : Nat) (tag : Int) (w1 w2 : Nat),
        (fourReads.cache set w1).valid = true ∧ (fourReads.cache set w1).tag = tag →
        (fourReads.cache set w2).valid = true ∧ (fourReads.cache set w2).tag = tag → w1 = w2 :=
  ⟨⟨[.read 0, .read 32, .read 64, .read 96], rfl⟩,
    no_duplicate_tags fourReads ⟨[.read 0, .read 32, .read 64, .read 96], rfl⟩⟩

/-- C18: the cache never evicts. In every reachable state every valid line of set `s`
has a tag in `[4*s, 4*s+3]`; whenever a read probe misses, the target set still has an
invalid way, the empty-slot loop finds it and it is the victim, so the FIFO branch is not
executed; and no call invalidates or re-tags a valid line. -/
theorem never_evicts (s : State) (h : Reachable s) :
    (∀ set way, set < CACHE_NUM_SETS → way < CACHE_WAYS → (s.cache set way).valid = true →
      (4 * set : Int) ≤ (s.cache set way).tag ∧ (s.cache set way).tag ≤ 4 * set + 3) ∧
    (∀ a : Int, 0 ≤ a → a < (RAM_SIZE : Int) →
      findWay s.cache (readSetIndex a.toNat) (readTag a.toNat : Int) = none →
      ∃ w, w < CACHE_WAYS ∧ (s.cache (readSetIndex a.toNat) w).valid = false ∧
        findEmpty s.cache (readSetIndex a.toNat) = some w ∧
        selectReplaceIndex s.cache (readSetIndex a.toNat) = w) ∧
    (∀ (op : Op) (set way : Nat), (s.cache set way).valid = true →
      ((step s op).cache set way).valid = true ∧
        ((step s op).cache set way).tag = (s.cache set way).tag) := by
  have hI := Inv_reachable s h
  refine ⟨?_, ?_, ?_⟩
  · intro set way _ _ hv
    exact (hI.tagRange set way hv).2.2
  · intro a h0 h1 hmiss
    obtain ⟨he, hv⟩ := miss_victim s hI a h0 h1 hmiss
    exact ⟨_, selectReplaceIndex_lt _ _, hv, he, rfl⟩
  · intro op set way hv
    obtain ⟨k1, k2, _⟩ := step_keeps_valid s hI op set way hv
    exact ⟨k1, k2⟩

theorem never_evicts_witness :
    Reachable fourReads ∧
      ((∀ set way, set < CACHE_NUM_SETS → way < CACHE_WAYS →
        (fourReads.cache set way).valid = true →
        (4 * set : Int) ≤ (fourReads.cache set way).tag ∧
          (fourReads.cache set way).tag ≤ 4 * set + 3) ∧
      (∀ a : Int, 0 ≤ a → a < (RAM_SIZE : Int) →
        findWay fourReads.cache (readSetIndex a.toNat) (readTag a.toNat : Int) = none →
        ∃ w, w < CACHE_WAYS ∧ (fourReads.cache (readSetIndex a.toNat) w).valid = false ∧
          findEmpty fourReads.cache (readSetIndex a.toNat) = some w ∧
          selectReplaceIndex fourReads.cache (readSetIndex a.toNat) = w) ∧
      (∀ (op : Op) (set way : Nat), (fourReads.cache set way).valid = true →
        ((step fourReads op).cache set way).valid = true ∧
          ((step fourReads op).cache set way).tag = (fourReads.cache set way).tag)) :=
  ⟨⟨[.read 0, .read 32, .read 64, .read 96], rfl⟩,
    never_evicts fourReads ⟨[.read 0, .read 32, .read 64, .read 96], rfl⟩⟩

/-- C19: the miss count is bounded. In every reachable state
`missCount = globalTime = ` the number of valid cache lines
`≤ CACHE_NUM_SETS * CACHE_WAYS = 16`, the valid lines carry pairwise distinct `fifo_time`
stamps, and each stamp is smaller than `globalTime`. -/
theorem miss_count_bounded (s : State) (h : Reachable s) :
    s.missCount = s.globalTime ∧ s.globalTime = validCount s.cache ∧
      validCount s.cache ≤ CACHE_NUM_SETS * CACHE_WAYS ∧ CACHE_NUM_SETS * CACHE_WAYS = 16 ∧
      (∀ set1 way1 set2 way2, (s.cache set1 way1).valid = true →
        (s.cache set2 way2).valid = true → ¬ (set1 = set2 ∧ way1 = way2) →
        (s.cache set1 way1).fifo_time ≠ (s.cache set2 way2).fifo_time) ∧
      (∀ set way, (s.cache set way).valid = true →
        (s.cache set way).fifo_time < s.globalTime) := by
  have hI := Inv_reachable s h
  refine ⟨hI.counters.1, hI.counters.2, validCount_le s.cache, by decide, ?_, hI.stampLt⟩
  intro set1 way1 set2 way2 h1 h2 hne hf
  exact hne (hI.stampInj set1 way1 set2 way2 h1 h2 hf)

theorem miss_count_bounded_witness :
    Reachable fourReads ∧
      (fourReads.missCount = fourReads.globalTime ∧
        fourReads.globalTime = validCount fourReads.cache ∧
        validCount fourReads.cache ≤ CACHE_NUM_SETS * CACHE_WAYS ∧
        CACHE_NUM_SETS * CACHE_WAYS = 16 ∧
        (∀ set1 way1 set2 way2, (fourReads.cache set1 way1).valid = true →
          (fourReads.cache set2 way2).valid = true → ¬ (set1 = set2 ∧ way1 = way2) →
          (fourReads.cache set1 way1).fifo_time ≠ (fourReads.cache set2 way2).fifo_time) ∧
        (∀ set way, (fourReads.cache set way).valid = true →
          (fourReads.cache set way).fifo_time < fourReads.globalTime)) :=
  ⟨⟨[.read 0, .read 32, .read 64, .read 96], rfl⟩,
    miss_count_bounded fourReads ⟨[.read 0, .read 32, .read 64, .read 96], rfl⟩⟩

end AssocCache
